import Mathlib

/-!
# glacier command line client: the `job run` download workflow and the
# `multipart` commands

A shallow embedding of `job.go` (the `run` case: job polling, the windowed
download loop, the final whole-file check) and of `multipart.go` (the `init`
and `upload` cases), followed by the properties proved about them.

Conventions of the embedding

* The `uint64` and `uint` values of Go are natural numbers, reduced modulo `2 ^ 64`
  wherever the source computes with them (`u64`).  The `int` counter `try` is
  an `Int`; it is never incremented past `retries + 1`, so it is not wrapped.
* `glacier.TreeHash`, the remote `connection`, and the operating system are
  outside the repository.  The hasher is a parameter (`TreeHasher`); what the
  remote service and the file system answer is supplied by an environment
  value, one entry per call, so a run is a total function of its environment.
* `os.Exit(1)` is the constructor `exit`; the state at the moment of the exit
  is kept so that properties of aborted runs can be stated.
-/

namespace Glacier

/-- One byte of file or network data. -/
abbrev Byte := Fin 256

/-- Reduction of a natural number to the range of `uint64`. -/
def u64 (x : Nat) : Nat := x % 2 ^ 64

/-- The operations of `glacier.TreeHash` that the commands call.  The type `H`
is the internal state of the hasher and `D` the type of the digests it reports
(strings in the source).  Nothing is assumed about them. -/
structure TreeHasher (H D : Type) where
  /-- Models `glacier.NewTreeHash()`. -/
  new : H
  /-- Models `th.Write(p)`. -/
  write : H → List Byte → H
  /-- Models `th.Close()`. -/
  close : H → H
  /-- Models `th.TreeHash()`. -/
  treeHash : H → D
  /-- Models `th.Hash()`. -/
  hash : H → D
  /-- Models `th.Reset()`. -/
  reset : H → H

/-- The chunks in which `io.Copy` / `io.CopyN` hand a byte sequence to the
destination writer.  The boundaries are chosen by the environment: `cuts`
lists the chunk sizes minus one; when it runs out the rest is one chunk. -/
def ioCopyChunks : List Nat → List Byte → List (List Byte)
  | _, [] => []
  | [], b :: bs => [b :: bs]
  | k :: ks, b :: bs => (b :: bs).take (k + 1) :: ioCopyChunks ks ((b :: bs).drop (k + 1))

/-- Models `io.Copy(hasher, src)` for a source that delivers `bytes`: one
`Write` per chunk, in order. -/
def feed {H D : Type} (th : TreeHasher H D) (h : H) (cuts : List Nat) (bytes : List Byte) : H :=
  (ioCopyChunks cuts bytes).foldl th.write h

/-- Reasons for which the commands call `os.Exit(1)`. -/
inductive ExitMsg
  /-- Printed as "too many retries". -/
  | tooManyRetries
  /-- The call `InitiateRetrievalJob` / `InitiateMultipart` failed. -/
  | initiateErr
  /-- The file could not be opened (`os.OpenFile`, `os.Open`). -/
  | openErr
  /-- The call `file.Seek(0, 0)` failed. -/
  | seekErr
  /-- Reading the file failed (`io.Copy(hasher, file)`, `io.CopyN`, `file.Read`,
  `glacier.GetTreeHash`). -/
  | readErr
  /-- Logged as "entire file tree hash mismatch". -/
  | wholeMismatch
  /-- The call `UploadMultipart` failed. -/
  | uploadErr
  /-- The call `CompleteMultipart` failed. -/
  | completeErr
  /-- Writing the session record failed (`os.Create`, `enc.Encode`). -/
  | sessionErr
  deriving DecidableEq, Repr

/-! ## `job run`: polling -/

/-- One answer of `connection.DescribeJob`: an error, or a job description with
its `Completed` flag, `ArchiveSizeInBytes` and `SHA256TreeHash`. -/
inductive Poll (D : Type)
  | err
  | job (completed : Bool) (size : Nat) (treeHash : D)
  deriving DecidableEq, Repr

/-- How the polling loop of `run` (job.go 267-292) stands after the answers
supplied so far. -/
inductive PollOut (D : Type)
  /-- The loop printed "too many retries" and exited. -/
  | exit
  /-- The loop is still polling; the value is the counter `try`. -/
  | polling (try_ : Int)
  /-- The loop left through `break` with `try`, `size` and `fullTreeHash`. -/
  | completed (try_ : Int) (size : Nat) (fullTreeHash : D)
  deriving DecidableEq, Repr

/-- The polling loop of `run` (job.go 270-292), started with counter `try_`,
fed the successive answers of `DescribeJob`. -/
def pollLoop {D : Type} (retries : Int) : Int → List (Poll D) → PollOut D
  | try_, [] => .polling try_
  | try_, .err :: rest =>
      if try_ + 1 > retries then .exit else pollLoop retries (try_ + 1) rest
  | _, .job completed size treeHash :: rest =>
      if completed then .completed 0 (u64 size) treeHash else pollLoop retries 0 rest

/-! ## `job run`: the download loop -/

/-- The outcome lines the download loop writes with `log.Println`. -/
inductive Ev
  /-- Logged as "GetRetrievalJob:" followed by the error. -/
  | getErr
  /-- Logged as "io.Copy:" followed by the error. -/
  | copyErr
  /-- Logged as "tree hash mismatch". -/
  | mismatch
  /-- Logged as "copying buffer to file:" followed by the error. -/
  | writeErr
  /-- Logged as "copied to file". -/
  | copied
  deriving DecidableEq, Repr

/-- What the environment answers during one pass through the loop body. -/
structure Attempt (D : Type) where
  /-- Whether `connection.GetRetrievalJob` returned an error. -/
  getErr : Bool
  /-- The bytes `io.Copy(buffer, part)` moved into the buffer. -/
  body : List Byte
  /-- Whether `io.Copy(buffer, part)` returned an error (after moving `body`). -/
  copyErr : Bool
  /-- The tree hash returned by `connection.GetRetrievalJob`. -/
  treeHash : D
  /-- The result of `file.Write`: `none` when it wrote everything, `some k` when it
  failed after writing the first `k` bytes. -/
  writeFail : Option Nat

/-- The remote service at one call: from the requested byte range (first and
last offset) to the answer. -/
abbrev Server (D : Type) := Nat → Nat → Attempt D

/-- The variables of the download loop, the destination file, and what the loop
has asked for and logged so far. -/
structure DlState (H : Type) where
  /-- The offset `n`. -/
  n : Nat
  /-- The failure counter `try`. -/
  try_ : Int
  /-- The content of `buffer`. -/
  buffer : List Byte
  /-- The state of `hasher`. -/
  hasher : H
  /-- The content of the destination file. -/
  file : List Byte
  /-- The byte ranges passed to `connection.GetRetrievalJob`, in call order. -/
  requests : List (Nat × Nat)
  /-- The outcome lines logged, in order. -/
  log : List Ev
  deriving DecidableEq, Repr

/-- The result of one pass through a loop body. -/
inductive Step (σ : Type)
  /-- The pass ended in `os.Exit(1)`. -/
  | exit (msg : ExitMsg) (s : σ)
  /-- The pass ended and the loop condition is evaluated again. -/
  | next (s : σ)
  deriving DecidableEq, Repr

/-- The state a pass ended in. -/
def Step.state {σ : Type} : Step σ → σ
  | .exit _ s => s
  | .next s => s

/-- The result of a loop fed a finite list of environment answers. -/
inductive Outcome (σ : Type)
  /-- The loop ended in `os.Exit(1)`. -/
  | exit (msg : ExitMsg) (s : σ)
  /-- The loop condition became false. -/
  | done (s : σ)
  /-- The answers ran out while the loop condition still held. -/
  | running (s : σ)
  deriving DecidableEq, Repr

/-- The byte range `n, n+partSize-1` of a request, in `uint64` arithmetic. -/
def window (partSize n : Nat) : Nat × Nat :=
  (n, u64 (u64 (n + partSize) + (2 ^ 64 - 1)))

/-- The statements `try++; if try > retries { fmt.Println("too many retries");
os.Exit(1) }` shared by the failure branches, after `ev` was logged. -/
def countFailure {H : Type} (retries : Int) (ev : Ev) (s : DlState H) : Step (DlState H) :=
  let s1 := { s with try_ := s.try_ + 1, log := s.log ++ [ev] }
  if s1.try_ > retries then .exit .tooManyRetries s1 else .next s1

/-- The statements that end a pass which reached "copied to file"
(job.go 363-368). -/
def commit {H D : Type} (th : TreeHasher H D) (s : DlState H) : DlState H :=
  { s with
    n := u64 (s.n + s.buffer.length)
    try_ := 0
    buffer := []
    hasher := th.reset s.hasher
    log := s.log ++ [Ev.copied] }

/-- One pass through the body of `for n < size` (job.go 311-368). -/
def loopBody {H D : Type} [DecidableEq D] (th : TreeHasher H D) (retries : Int)
    (partSize : Nat) (s : DlState H) (srv : Server D) : Step (DlState H) :=
  let w := window partSize s.n
  let a := srv w.1 w.2
  let s1 := { s with requests := s.requests ++ [w] }
  if a.getErr then
    countFailure retries .getErr s1
  else
    let s2 := { s1 with buffer := s1.buffer ++ a.body }
    if a.copyErr then
      countFailure retries .copyErr s2
    else
      let s3 := { s2 with hasher := th.close (th.write s2.hasher s2.buffer) }
      if a.treeHash ≠ th.treeHash s3.hasher then
        countFailure retries .mismatch s3
      else
        match a.writeFail with
        | none => .next (commit th { s3 with file := s3.file ++ s3.buffer })
        | some k =>
          match countFailure retries .writeErr { s3 with file := s3.file ++ s3.buffer.take k } with
          | .exit msg s4 => .exit msg s4
          | .next s4 => .next (commit th s4)

/-- The loop `for n < size` (job.go 310-369), fed one server answer per pass. -/
def downloadLoop {H D : Type} [DecidableEq D] (th : TreeHasher H D) (retries : Int)
    (partSize size : Nat) : DlState H → List (Server D) → Outcome (DlState H)
  | s, [] => if s.n < size then .running s else .done s
  | s, srv :: rest =>
      if s.n < size then
        match loopBody th retries partSize s srv with
        | .exit msg s1 => .exit msg s1
        | .next s1 => downloadLoop th retries partSize size s1 rest
      else .done s

/-- The state in which the download loop is entered (job.go 296-308): `try` as the
polling loop left it, the file opened with `O_RDWR|O_APPEND|O_CREATE` holding
whatever was stored under the output name (`existing`, empty when there was no such
file). -/
def initState {H D : Type} (th : TreeHasher H D) (try_ : Int) (existing : List Byte) :
    DlState H :=
  { n := 0, try_ := try_, buffer := [], hasher := th.new, file := existing,
    requests := [], log := [] }

/-- The check of the entire file after the loop (job.go 371-390). -/
def verify {H D : Type} [DecidableEq D] (th : TreeHasher H D) (fullTreeHash : D)
    (seekErr readErr : Bool) (cuts : List Nat) (s : DlState H) : Outcome (DlState H) :=
  if seekErr then .exit .seekErr s
  else if readErr then .exit .readErr s
  else
    let s1 := { s with hasher := th.close (feed th s.hasher cuts s.file) }
    if th.treeHash s1.hasher ≠ fullTreeHash then .exit .wholeMismatch s1 else .done s1

/-- What the environment answers during one execution of `run`. -/
structure RunEnv (D : Type) where
  /-- Whether `connection.InitiateRetrievalJob` returned an error. -/
  initiateErr : Bool
  /-- The successive answers of `connection.DescribeJob`. -/
  polls : List (Poll D)
  /-- Whether `os.OpenFile` returned an error. -/
  openErr : Bool
  /-- The content stored under the output name before the run. -/
  existing : List Byte
  /-- The remote service at the successive calls of `GetRetrievalJob`. -/
  servers : List (Server D)
  /-- Whether `file.Seek(0, 0)` returned an error. -/
  seekErr : Bool
  /-- Whether `io.Copy(hasher, file)` returned an error. -/
  readErr : Bool
  /-- The chunk boundaries of `io.Copy(hasher, file)`. -/
  cuts : List Nat

/-- The result of `run`. -/
inductive RunResult (H : Type)
  /-- The command exited with status 1 before the download loop was entered. -/
  | early (msg : ExitMsg)
  /-- The answers ran out while the polling loop was still polling. -/
  | polling
  /-- The division `size/partSize` in the log line of job.go 306 stopped the program
  (`partSize` is 0). -/
  | divideByZero
  /-- The command got as far as the download loop; the outcome of the loop and of
  the check that follows it. -/
  | download (o : Outcome (DlState H))
  deriving DecidableEq, Repr

/-- The case `"run"` of `job` from the call of `InitiateRetrievalJob` on
(job.go 256-390); `partSize` is the third argument multiplied by `1024*1024`. -/
def run {H D : Type} [DecidableEq D] (th : TreeHasher H D) (retries : Int) (partSize : Nat)
    (env : RunEnv D) : RunResult H :=
  if env.initiateErr then .early .initiateErr
  else
    match pollLoop retries 0 env.polls with
    | .exit => .early .tooManyRetries
    | .polling _ => .polling
    | .completed try_ size fullTreeHash =>
      if env.openErr then .early .openErr
      else if partSize = 0 then .divideByZero
      else
        match downloadLoop th retries partSize size (initState th try_ env.existing)
            env.servers with
        | .exit msg s => .download (.exit msg s)
        | .running s => .download (.running s)
        | .done s => .download (verify th fullTreeHash env.seekErr env.readErr env.cuts s)

/-! ## `multipart init` -/

/-- The record kept for one part (`multipartPart`). -/
structure multipartPart (D : Type) where
  Hash : D
  TreeHash : D
  Uploaded : Bool
  deriving DecidableEq, Repr

/-- The upload session written to the `.gob` file (`multipartData`). -/
structure multipartData (D : Type) where
  Vault : String
  Description : String
  PartSize : Nat
  FileName : String
  UploadId : String
  Parts : List (multipartPart D)
  deriving DecidableEq, Repr

/-- The number of part records allocated by `init` (multipart.go 74-78) for a file
of `size` bytes.  Both operands are below `2 ^ 63` in the source (`int64`), where
the quotient and the increment cannot overflow. -/
def partCount (size partSize : Nat) : Nat :=
  let parts := size / partSize
  if size % partSize > 0 then parts + 1 else parts

/-- What the environment answers during one execution of `init`. -/
structure InitEnv where
  /-- Whether `os.Open` returned an error. -/
  openErr : Bool
  /-- Whether `io.CopyN` returned an error other than `io.EOF` for part `i`. -/
  copyErr : Nat → Bool
  /-- The chunk boundaries of `io.CopyN` for part `i`. -/
  cuts : Nat → List Nat
  /-- Whether `os.Create` or `enc.Encode` returned an error. -/
  sessionErr : Bool

/-- The loop `for i := range data.Parts` (multipart.go 82-94) with `count` passes
left, at part index `i`, the file read up to the start of `rest`.  The result is
`none` when a pass exits; otherwise the part records together with, for each part,
the bytes `io.CopyN(th, f, int64(data.PartSize))` handed to the hasher. -/
def hashParts {H D : Type} (th : TreeHasher H D) (partSize : Nat) (env : InitEnv) :
    Nat → Nat → List Byte → H → Option (List (multipartPart D) × List (List Byte))
  | 0, _, _, _ => some ([], [])
  | count + 1, i, rest, h =>
      if env.copyErr i then none
      else
        let bytes := rest.take partSize
        let h1 := th.close (feed th h (env.cuts i) bytes)
        let part : multipartPart D :=
          { Hash := th.hash h1, TreeHash := th.treeHash h1, Uploaded := false }
        match hashParts th partSize env count (i + 1) (rest.drop partSize) (th.reset h1) with
        | none => none
        | some (parts, fed) => some (part :: parts, bytes :: fed)

/-- The result of `init`. -/
inductive InitResult (D : Type)
  /-- The command exited with status 1. -/
  | exit (msg : ExitMsg)
  /-- The division by a zero part size stopped the program. -/
  | divideByZero
  /-- The session was written; `fed` lists the bytes hashed for each part. -/
  | ok (data : multipartData D) (fed : List (List Byte))

/-- The case `"init"` of `multipart` (multipart.go 66-110) for a source file holding
`file`, given the values stored in `data.Vault`, `data.FileName`, `data.Description`
and `data.PartSize`. -/
def multipartInit {H D : Type} (th : TreeHasher H D) (vault fileName description : String)
    (partSize : Nat) (file : List Byte) (env : InitEnv) : InitResult D :=
  if env.openErr then .exit .openErr
  else if partSize = 0 then .divideByZero
  else
    match hashParts th partSize env (partCount file.length partSize) 0 file th.new with
    | none => .exit .readErr
    | some (parts, fed) =>
      if env.sessionErr then .exit .sessionErr
      else
        .ok { Vault := vault, Description := description, PartSize := partSize,
              FileName := fileName, UploadId := "", Parts := parts } fed

/-! ## `multipart upload` -/

/-- The error value returned by `file.Read`. -/
inductive ReadErr
  | nil
  | eof
  | other
  deriving DecidableEq, Repr

/-- What the operating system does at one call of `file.Read`: deliver data (at most
`k + 1` bytes, so reads may be short) or fail. -/
inductive ReadChoice
  | data (k : Nat)
  | fail
  deriving DecidableEq, Repr

/-- The method `Read` of `*os.File` on a file holding `file`, at offset `pos`, into
a buffer of `bufLen` bytes: some bytes and a nil error, or no byte and `io.EOF` at
the end of the file, or no byte and an error. -/
def fileRead (file : List Byte) (pos bufLen : Nat) : ReadChoice → List Byte × ReadErr
  | .fail => ([], .other)
  | .data k =>
      let bytes := (file.drop pos).take (min (k + 1) bufLen)
      if bytes = [] then ([], .eof) else (bytes, .nil)

/-- The calls `upload` makes on the remote service. -/
inductive Call (D : Type)
  | initiateMultipart (partSize : Nat)
  | uploadMultipart (at_ : Nat) (bytes : List Byte)
  | completeMultipart (treeHash : D) (size : Nat)
  deriving DecidableEq, Repr

/-- The variables of the upload loop: the offset `at`, the read position of `file`,
and the remote calls made so far. -/
structure UpState (D : Type) where
  at_ : Nat
  pos : Nat
  calls : List (Call D)
  deriving DecidableEq, Repr

/-- What the environment answers during one pass of the upload loop. -/
structure UpStep where
  /-- The behaviour of `file.Read`. -/
  read : ReadChoice
  /-- Whether `connection.UploadMultipart` returned an error. -/
  uploadErr : Bool

/-- How the loop `for err == nil` (multipart.go 177-192) ends. -/
inductive LoopEnd (D : Type)
  /-- A pass ended in `os.Exit(1)`. -/
  | exit (msg : ExitMsg) (s : UpState D)
  /-- The loop was left through `break`, with `err` as `file.Read` returned it. -/
  | broke (err : ReadErr) (s : UpState D)
  /-- The answers ran out while the loop was running. -/
  | running (s : UpState D)

/-- The size of the upload buffer, `uint(1024 * 1024)`. -/
def chunkSize : Nat := 1024 * 1024

/-- The loop `for err == nil` (multipart.go 177-192).  A pass that does not exit
leaves `err == nil`, so the loop is only left through `break`. -/
def uploadLoop {D : Type} (file : List Byte) : UpState D → List UpStep → LoopEnd D
  | s, [] => .running s
  | s, e :: rest =>
      let r := fileRead file s.pos chunkSize e.read
      if r.1.length = 0 then .broke r.2 s
      else
        let s1 : UpState D :=
          { s with pos := s.pos + r.1.length,
                   calls := s.calls ++ [Call.uploadMultipart s.at_ r.1] }
        if e.uploadErr then .exit .uploadErr s1
        else uploadLoop file { s1 with at_ := u64 (s1.at_ + r.1.length) } rest

/-- What the environment answers during one execution of `upload`. -/
structure UploadEnv where
  /-- Whether `os.Open` returned an error. -/
  openErr : Bool
  /-- Whether `connection.InitiateMultipart` returned an error. -/
  initiateErr : Bool
  /-- The passes of the upload loop. -/
  steps : List UpStep
  /-- Whether `file.Seek(0, 0)` returned an error. -/
  seekErr : Bool
  /-- Whether `glacier.GetTreeHash` returned an error. -/
  treeHashErr : Bool
  /-- Whether `connection.CompleteMultipart` returned an error. -/
  completeErr : Bool

/-- The case `"upload"` of `multipart` (multipart.go 160-221) for a source file
holding `file`; `getTreeHash` is `glacier.GetTreeHash` as a function of the bytes
it reads. -/
def multipartUpload {D : Type} (getTreeHash : List Byte → D) (file : List Byte)
    (env : UploadEnv) : Outcome (UpState D) :=
  let s0 : UpState D := { at_ := 0, pos := 0, calls := [] }
  if env.openErr then .exit .openErr s0
  else
    let s1 := { s0 with calls := [Call.initiateMultipart chunkSize] }
    if env.initiateErr then .exit .initiateErr s1
    else
      match uploadLoop file s1 env.steps with
      | .exit msg s => .exit msg s
      | .running s => .running s
      | .broke err s =>
        if err = .other then .exit .readErr s
        else if env.seekErr then .exit .seekErr s
        else if env.treeHashErr then .exit .readErr s
        else
          let s2 := { s with calls := s.calls ++ [Call.completeMultipart (getTreeHash file) s.at_] }
          if env.completeErr then .exit .completeErr s2 else .done s2

/-- The state an outcome carries. -/
def Outcome.state {σ : Type} : Outcome σ → σ
  | .exit _ s => s
  | .done s => s
  | .running s => s

/-- The two files the `multipart` commands work on: the source file and the
session record stored beside it under the name with `.gob` appended (absent
before `init` has run). -/
structure Disk (D : Type) where
  file : List Byte
  session : Option (multipartData D)

/-- The command `multipart upload` on a disk: it opens the source file only, and
neither reads nor writes the session record. -/
def uploadCommand {D : Type} (getTreeHash : List Byte → D) (disk : Disk D)
    (env : UploadEnv) : Outcome (UpState D) × Disk D :=
  (multipartUpload getTreeHash disk.file env, disk)

/-- The chunks sent with `UploadMultipart`, each with its offset, in call order. -/
def transmitted {D : Type} : List (Call D) → List (Nat × List Byte)
  | [] => []
  | .uploadMultipart at_ bytes :: rest => (at_, bytes) :: transmitted rest
  | _ :: rest => transmitted rest

/-! ## A hasher to run the definitions on concrete inputs -/

/-- A hasher that reports as digest the bytes written since the last reset. -/
def accHasher : TreeHasher (List Byte) (List Byte) where
  new := []
  write := fun h p => h ++ p
  close := fun h => h
  treeHash := fun h => h
  hash := fun h => h
  reset := fun _ => []

/-! ## Definitions used to state the properties -/

/-- The answer of a remote service that holds `archive`, transmits without error
the bytes of the requested range that exist, and reports the tree hash of what it
sent as a newly created hasher computes it; the write to the file succeeds. -/
def archiveServer {H D : Type} (th : TreeHasher H D) (archive : List Byte) : Server D :=
  fun lo hi =>
    let body := (archive.drop lo).take (hi + 1 - lo)
    { getErr := false, body := body, copyErr := false,
      treeHash := th.treeHash (th.close (th.write th.new body)), writeFail := none }

/-- An answer whose bytes `1, 3` do not have the tree hash it reports (that of
`1, 2`), as `accHasher` computes it. -/
def corruptAnswer : Server (List Byte) :=
  fun _ _ => { getErr := false, body := [1, 3], copyErr := false, treeHash := [1, 2],
               writeFail := none }

/-- The answer of `archiveServer` for the archive `1, 2`, except that `file.Write`
fails before writing a byte. -/
def writeFailAnswer : Server (List Byte) :=
  fun lo hi => { archiveServer accHasher [1, 2] lo hi with writeFail := some 0 }

/-- A hasher state is freshly reset when it is the one `NewTreeHash` returns or
one that `Reset` has just produced. -/
def FreshlyReset {H D : Type} (th : TreeHasher H D) (h : H) : Prop :=
  h = th.new ∨ ∃ h0, h = th.reset h0

/-- The number of consecutive failures at the end of a history: the length of its
longest suffix that consists of failures only. -/
def streak {α : Type} (isFailure : α → Bool) (history : List α) : Nat :=
  (history.reverse.takeWhile isFailure).length

/-- The streak of failures never exceeded `ceiling` at any point of the history. -/
def NeverAbove {α : Type} (isFailure : α → Bool) (ceiling : Int) (history : List α) : Prop :=
  ∀ j, j ≤ history.length → (streak isFailure (history.take j) : Int) ≤ ceiling

/-- Whether an answer of `DescribeJob` is an error. -/
def Poll.isErr {D : Type} : Poll D → Bool
  | .err => true
  | .job _ _ _ => false

/-- Whether a logged outcome line reports a failure. -/
def Ev.isFailure : Ev → Bool
  | .copied => false
  | _ => true

/-- Whether the answer the service gives to the request made in state `s` is a
failure of the window: `GetRetrievalJob` returns an error, or `io.Copy` returns an
error, or the tree hash returned differs from the one computed locally. -/
def answerFails {H D : Type} [DecidableEq D] (th : TreeHasher H D) (partSize : Nat)
    (s : DlState H) (srv : Server D) : Bool :=
  let a := srv (window partSize s.n).1 (window partSize s.n).2
  a.getErr || a.copyErr ||
    decide (a.treeHash ≠ th.treeHash (th.close (th.write s.hasher (s.buffer ++ a.body))))

/-- Whether every answer of the list is a failure of the window, each answer being
given in the state the pass before it ended in. -/
def failingPasses {H D : Type} [DecidableEq D] (th : TreeHasher H D) (retries : Int)
    (partSize : Nat) : DlState H → List (Server D) → Bool
  | _, [] => true
  | s, srv :: rest =>
      answerFails th partSize s srv &&
        failingPasses th retries partSize (loopBody th retries partSize s srv).state rest

/-- An environment of `run` in which no call fails: the first poll reports the job
completed with size 2 and the tree hash of `1, 2`, the service holds the archive
`1, 2`, and the output name holds `existing` before the run. -/
def cleanEnv (existing : List Byte) : RunEnv (List Byte) :=
  { initiateErr := false, polls := [Poll.job true 2 [1, 2]], openErr := false,
    existing := existing, servers := [archiveServer accHasher [1, 2]], seekErr := false,
    readErr := false, cuts := [] }

/-- An environment of `init` in which no call fails. -/
def quietInit : InitEnv :=
  { openErr := false, copyErr := fun _ => false, cuts := fun _ => [], sessionErr := false }

/-- An environment of `upload` in which no call fails and `file.Read` fills the
buffer as far as the file allows, for two passes of the loop. -/
def quietUpload : UploadEnv :=
  { openErr := false, initiateErr := false,
    steps := [{ read := .data 1048575, uploadErr := false },
              { read := .data 1048575, uploadErr := false }],
    seekErr := false, treeHashErr := false, completeErr := false }

/-- A disk holding a source file of one byte and the session of an upload in one part
of 1 MiB that is marked as uploaded. -/
def uploadedDisk : Disk (List Byte) :=
  { file := [5],
    session := some
      { Vault := "vault", Description := "", PartSize := 1048576, FileName := "archive",
        UploadId := "", Parts := [{ Hash := [5], TreeHash := [5], Uploaded := true }] } }

/-- The bytes sent with `UploadMultipart`, in call order. -/
def sentBytes {D : Type} (calls : List (Call D)) : List Byte :=
  ((transmitted calls).map Prod.snd).flatten

/-- Every chunk sent is non-empty and was sent at the offset that is the total
length of the chunks sent before it. -/
def Contiguous {D : Type} (calls : List (Call D)) : Prop :=
  ∀ pre c post, transmitted calls = pre ++ c :: post →
    c.1 = (pre.map (fun x => x.2.length)).sum ∧ c.2 ≠ []

/-- The invariant of the upload loop: `at` is the read position, which lies within
the file; what was sent is the file up to that position, in contiguous chunks; the
upload has not been completed. -/
def UpInv {D : Type} (file : List Byte) (s : UpState D) : Prop :=
  s.at_ = s.pos ∧ s.pos ≤ file.length ∧ sentBytes s.calls = file.take s.pos ∧
    Contiguous s.calls ∧ ∀ h sz, Call.completeMultipart h sz ∉ s.calls

/-- An environment of `upload` in which no call fails and `file.Read` returns at most
2 bytes at the first call. -/
def shortReadUpload : UploadEnv :=
  { openErr := false, initiateErr := false,
    steps := [{ read := .data 1, uploadErr := false },
              { read := .data 1048575, uploadErr := false },
              { read := .data 1048575, uploadErr := false }],
    seekErr := false, treeHashErr := false, completeErr := false }

/-! ## The download loop: one pass -/

theorem countFailure_state {H : Type} (retries : Int) (ev : Ev) (s : DlState H) :
    (countFailure retries ev s).state = { s with try_ := s.try_ + 1, log := s.log ++ [ev] } := by
  unfold countFailure
  dsimp only
  split <;> rfl

theorem countFailure_cases {H : Type} (retries : Int) (ev : Ev) (s : DlState H) :
    (s.try_ + 1 ≤ retries ∧ countFailure retries ev s =
        .next { s with try_ := s.try_ + 1, log := s.log ++ [ev] }) ∨
    (retries < s.try_ + 1 ∧ countFailure retries ev s =
        .exit .tooManyRetries { s with try_ := s.try_ + 1, log := s.log ++ [ev] }) := by
  unfold countFailure
  dsimp only
  by_cases h : s.try_ + 1 > retries
  · right
    exact ⟨h, by rw [if_pos h]⟩
  · left
    exact ⟨not_lt.mp h, by rw [if_neg h]⟩

theorem loopBody_requests {H D : Type} [DecidableEq D] (th : TreeHasher H D)
    (retries : Int) (partSize : Nat) (s : DlState H) (srv : Server D) :
    (loopBody th retries partSize s srv).state.requests =
      s.requests ++ [window partSize s.n] := by
  unfold loopBody
  dsimp only
  split
  · rw [countFailure_state]
  · split
    · rw [countFailure_state]
    · split
      · rw [countFailure_state]
      · split
        · rfl
        · rename_i k _
          rcases countFailure_cases retries Ev.writeErr
            { n := s.n, try_ := s.try_,
              buffer := s.buffer ++ (srv (window partSize s.n).1 (window partSize s.n).2).body,
              hasher := th.close (th.write s.hasher
                (s.buffer ++ (srv (window partSize s.n).1 (window partSize s.n).2).body)),
              file := s.file ++ (s.buffer ++
                (srv (window partSize s.n).1 (window partSize s.n).2).body).take k,
              requests := s.requests ++ [window partSize s.n], log := s.log }
            with ⟨_, h⟩ | ⟨_, h⟩
          · rw [h]; rfl
          · rw [h]; rfl

/-- C1: a pass of the download loop in which the fetch and the copy succeed but the
locally computed tree hash differs from the one returned by `GetRetrievalJob` ends,
either in the next evaluation of the loop condition (when the counter does not
exceed `retries`) or in the exit "too many retries", with the offset `n` and the
destination file unchanged; in the first case the loop goes on from that state, and
its next pass requests the same byte range again, whatever the service answers. -/
theorem mismatch_keeps_window {H D : Type} [DecidableEq D] (th : TreeHasher H D)
    (retries : Int) (partSize : Nat) (s : DlState H) (srv : Server D)
    (hget : (srv (window partSize s.n).1 (window partSize s.n).2).getErr = false)
    (hcopy : (srv (window partSize s.n).1 (window partSize s.n).2).copyErr = false)
    (hmis : (srv (window partSize s.n).1 (window partSize s.n).2).treeHash ≠
      th.treeHash (th.close (th.write s.hasher
        (s.buffer ++ (srv (window partSize s.n).1 (window partSize s.n).2).body)))) :
    ∃ s1, s1.n = s.n ∧ s1.file = s.file ∧
      s1.requests = s.requests ++ [window partSize s.n] ∧
      ((s.try_ + 1 ≤ retries ∧ loopBody th retries partSize s srv = .next s1 ∧
          (∀ srv2 : Server D, (loopBody th retries partSize s1 srv2).state.requests =
            s.requests ++ [window partSize s.n, window partSize s.n]) ∧
          (∀ (size : Nat) (rest : List (Server D)), s.n < size →
            downloadLoop th retries partSize size s (srv :: rest) =
              downloadLoop th retries partSize size s1 rest)) ∨
       (retries < s.try_ + 1 ∧
          loopBody th retries partSize s srv = .exit .tooManyRetries s1)) := by
  have hbody : loopBody th retries partSize s srv = countFailure retries .mismatch
      { s with
        requests := s.requests ++ [window partSize s.n]
        buffer := s.buffer ++ (srv (window partSize s.n).1 (window partSize s.n).2).body
        hasher := th.close (th.write s.hasher
          (s.buffer ++ (srv (window partSize s.n).1 (window partSize s.n).2).body)) } := by
    unfold loopBody
    dsimp only
    rw [if_neg (by simp [hget]), if_neg (by simp [hcopy]), if_pos hmis]
  refine ⟨(loopBody th retries partSize s srv).state, ?_, ?_, ?_, ?_⟩
  · rw [hbody, countFailure_state]
  · rw [hbody, countFailure_state]
  · rw [loopBody_requests]
  · rw [hbody, countFailure_state]
    rcases countFailure_cases retries Ev.mismatch
      { s with
        requests := s.requests ++ [window partSize s.n]
        buffer := s.buffer ++ (srv (window partSize s.n).1 (window partSize s.n).2).body
        hasher := th.close (th.write s.hasher
          (s.buffer ++ (srv (window partSize s.n).1 (window partSize s.n).2).body)) }
      with ⟨hle, h⟩ | ⟨hlt, h⟩
    · left
      refine ⟨hle, h, ?_, ?_⟩
      · intro srv2
        rw [loopBody_requests]
        simp
      · intro size rest hn
        rw [← hbody] at h
        simp only [downloadLoop, if_pos hn, h]
    · right
      exact ⟨hlt, h⟩

/-- Witness for C1: with `retries = 1`, on the first pass of a download in windows
of 1 MiB the corrupt answer leaves `n` and the file as they were. -/
theorem mismatch_keeps_window_witness :
    (corruptAnswer 0 1048575).getErr = false ∧ (corruptAnswer 0 1048575).copyErr = false ∧
    (corruptAnswer 0 1048575).treeHash ≠ accHasher.treeHash (accHasher.close
      (accHasher.write [] ([] ++ (corruptAnswer 0 1048575).body))) ∧
    ∃ s1 : DlState (List Byte), s1.n = 0 ∧ s1.file = [] ∧
      s1.requests = [] ++ [window 1048576 0] ∧
      (((0 : Int) + 1 ≤ 1 ∧
          loopBody accHasher 1 1048576 (initState accHasher 0 []) corruptAnswer = .next s1 ∧
          (∀ srv2 : Server (List Byte),
            (loopBody accHasher 1 1048576 s1 srv2).state.requests =
              [] ++ [window 1048576 0, window 1048576 0]) ∧
          (∀ (size : Nat) (rest : List (Server (List Byte))), 0 < size →
            downloadLoop accHasher 1 1048576 size (initState accHasher 0 [])
                (corruptAnswer :: rest) =
              downloadLoop accHasher 1 1048576 size s1 rest)) ∨
       ((1 : Int) < 0 + 1 ∧
          loopBody accHasher 1 1048576 (initState accHasher 0 []) corruptAnswer =
            .exit .tooManyRetries s1)) :=
  ⟨by decide, by decide, by decide,
    mismatch_keeps_window accHasher 1 1048576 (initState accHasher 0 []) corruptAnswer
      (by decide) (by decide) (by decide)⟩

/-- C2, the code at a failing input: with `retries = 1`, an archive of 2 bytes and
windows of 1 MiB, a corrupt answer followed by the correct answer ends in "too many
retries".  On the second pass the buffer holds the bytes of both answers, and the
hasher, which was closed and not reset, is written that whole buffer; the correct
answer alone, on the first pass, is accepted. -/
theorem refetch_after_mismatch_rejected :
    downloadLoop accHasher 1 1048576 2 (initState accHasher 0 [])
        [corruptAnswer, archiveServer accHasher [1, 2]] =
      .exit .tooManyRetries
        { n := 0, try_ := 2, buffer := [1, 3, 1, 2], hasher := [1, 3, 1, 3, 1, 2], file := [],
          requests := [(0, 1048575), (0, 1048575)], log := [.mismatch, .mismatch] } ∧
    downloadLoop accHasher 1 1048576 2 (initState accHasher 0 [])
        [archiveServer accHasher [1, 2]] =
      .done
        { n := 2, try_ := 0, buffer := [], hasher := [], file := [1, 2],
          requests := [(0, 1048575)], log := [.copied] } := by
  decide

/-- C5, counterexample: with `retries = 1`, a pass in which `file.Write` fails before
writing a byte does not exit; it ends with `n` advanced from 0 to 2, the counter
back at 0 and nothing in the file. -/
theorem write_failure_not_fatal :
    (writeFailAnswer 0 1048575).writeFail = some 0 ∧
    loopBody accHasher 1 1048576 (initState accHasher 0 []) writeFailAnswer =
      .next
        { n := 2, try_ := 0, buffer := [], hasher := [], file := [],
          requests := [(0, 1048575)], log := [.writeErr, .copied] } := by
  decide

/-- C5, amended: a pass in which the window was fetched, copied and verified but
`file.Write` fails counts one failure against the retry ceiling.  The run exits with
"too many retries" exactly when the counter thereby exceeds `retries`; it then exits
with `n` not advanced and with the request of this pass as the last one, whatever answers
were still to come. -/
theorem write_failure_counts_as_retry {H D : Type} [DecidableEq D] (th : TreeHasher H D)
    (retries : Int) (partSize size : Nat) (s : DlState H) (srv : Server D)
    (rest : List (Server D)) (k : Nat)
    (hn : s.n < size)
    (hget : (srv (window partSize s.n).1 (window partSize s.n).2).getErr = false)
    (hcopy : (srv (window partSize s.n).1 (window partSize s.n).2).copyErr = false)
    (hok : (srv (window partSize s.n).1 (window partSize s.n).2).treeHash =
      th.treeHash (th.close (th.write s.hasher
        (s.buffer ++ (srv (window partSize s.n).1 (window partSize s.n).2).body))))
    (hwrite : (srv (window partSize s.n).1 (window partSize s.n).2).writeFail = some k) :
    (retries < s.try_ + 1 →
      ∃ s1, downloadLoop th retries partSize size s (srv :: rest) =
          .exit .tooManyRetries s1 ∧
        s1.n = s.n ∧ s1.requests = s.requests ++ [window partSize s.n]) ∧
    (s.try_ + 1 ≤ retries →
      ∃ s1, loopBody th retries partSize s srv = .next s1) := by
  obtain ⟨s3, hs3n, htry, hs3r, hbody⟩ : ∃ s3 : DlState H, s3.n = s.n ∧ s3.try_ = s.try_ ∧
      s3.requests = s.requests ++ [window partSize s.n] ∧
      loopBody th retries partSize s srv =
        match countFailure retries .writeErr s3 with
        | .exit msg s4 => .exit msg s4
        | .next s4 => .next (commit th s4) := by
    refine ⟨{ s with
        requests := s.requests ++ [window partSize s.n]
        buffer := s.buffer ++ (srv (window partSize s.n).1 (window partSize s.n).2).body
        hasher := th.close (th.write s.hasher
          (s.buffer ++ (srv (window partSize s.n).1 (window partSize s.n).2).body))
        file := s.file ++ (s.buffer ++
          (srv (window partSize s.n).1 (window partSize s.n).2).body).take k }, rfl, rfl, rfl, ?_⟩
    unfold loopBody
    dsimp only
    rw [if_neg (by simp [hget]), if_neg (by simp [hcopy]), if_neg (by simp [hok])]
    simp only [hwrite]
  rcases countFailure_cases retries Ev.writeErr s3 with ⟨hle, h⟩ | ⟨hlt, h⟩
  · rw [h] at hbody
    refine ⟨fun hlt => absurd hle (not_le.mpr (htry ▸ hlt)), fun _ => ⟨_, hbody⟩⟩
  · rw [h] at hbody
    refine ⟨fun _ => ⟨{ s3 with try_ := s3.try_ + 1, log := s3.log ++ [Ev.writeErr] },
      ?_, hs3n, hs3r⟩, fun hle => absurd (htry ▸ hle) (not_le.mpr hlt)⟩
    simp only [downloadLoop, if_pos hn, hbody]

/-- Witness for C5: the failing write at a counter already equal to `retries = 0`,
and at a counter below `retries = 1`. -/
theorem write_failure_counts_as_retry_witness :
    ((0 : Int) < 0 + 1 →
      ∃ s1 : DlState (List Byte),
        downloadLoop accHasher 0 1048576 2 (initState accHasher 0 [])
            (writeFailAnswer :: [archiveServer accHasher [1, 2]]) =
          .exit .tooManyRetries s1 ∧
        s1.n = 0 ∧ s1.requests = [] ++ [window 1048576 0]) ∧
    ((0 : Int) + 1 ≤ 0 →
      ∃ s1 : DlState (List Byte),
        loopBody accHasher 0 1048576 (initState accHasher 0 []) writeFailAnswer = .next s1) :=
  write_failure_counts_as_retry accHasher 0 1048576 2 (initState accHasher 0 [])
    writeFailAnswer [archiveServer accHasher [1, 2]] 0
    (by decide) (by decide) (by decide) (by decide) (by decide)

/-! ## Consecutive failures -/

theorem streak_nil {α : Type} (f : α → Bool) : streak f [] = 0 := by
  simp [streak]

theorem streak_concat {α : Type} (f : α → Bool) (l : List α) (a : α) :
    streak f (l ++ [a]) = if f a then streak f l + 1 else 0 := by
  unfold streak
  rw [List.reverse_append, List.reverse_singleton, List.singleton_append, List.takeWhile_cons]
  split <;> simp

theorem neverAbove_nil {α : Type} (f : α → Bool) (r : Int) (hr : 0 ≤ r) :
    NeverAbove f r [] := by
  intro j _
  simp [streak_nil, hr]

theorem neverAbove_concat {α : Type} (f : α → Bool) (r : Int) (l : List α) (a : α)
    (hl : NeverAbove f r l) (ha : (streak f (l ++ [a]) : Int) ≤ r) :
    NeverAbove f r (l ++ [a]) := by
  intro j hj
  by_cases hjl : j ≤ l.length
  · rw [List.take_append_of_le_length hjl]
    exact hl j hjl
  · have hlen : (l ++ [a]).length ≤ j := by
      simp only [List.length_append, List.length_singleton] at hj ⊢
      omega
    rw [List.take_of_length_le hlen]
    exact ha

theorem neverAbove_self {α : Type} (f : α → Bool) (r : Int) (l : List α)
    (hl : NeverAbove f r l) : (streak f l : Int) ≤ r := by
  have h := hl l.length (le_refl _)
  rwa [List.take_length] at h

/-! ## The polling loop -/

theorem pollLoop_append {D : Type} (retries : Int) (ps qs : List (Poll D)) (t : Int) :
    pollLoop retries t (ps ++ qs) =
      match pollLoop retries t ps with
      | .polling t1 => pollLoop retries t1 qs
      | o => o := by
  induction ps generalizing t with
  | nil => simp [pollLoop]
  | cons p ps ih =>
    cases p with
    | err =>
      simp only [List.cons_append, pollLoop]
      split
      · rfl
      · exact ih _
    | job completed size treeHash =>
      simp only [List.cons_append, pollLoop]
      split
      · rfl
      · exact ih _

/-- The polling loop started with a zero counter: while it polls, the counter is
the number of consecutive errors at the end of the answers; it exits after the
first answer that makes this number `retries + 1`; it leaves with a zero counter. -/
theorem pollLoop_counts {D : Type} (retries : Int) (hr : 0 ≤ retries) (ps : List (Poll D)) :
    (∀ t, pollLoop retries 0 ps = .polling t →
      t = (streak Poll.isErr ps : Int) ∧ NeverAbove Poll.isErr retries ps) ∧
    (pollLoop retries 0 ps = .exit →
      ∃ k, k < ps.length ∧ NeverAbove Poll.isErr retries (ps.take k) ∧
        (streak Poll.isErr (ps.take (k + 1)) : Int) = retries + 1) ∧
    (∀ t size treeHash, pollLoop retries 0 ps = .completed t size treeHash → t = 0) := by
  induction ps using List.reverseRecOn with
  | nil =>
    refine ⟨?_, ?_, ?_⟩
    · intro t h
      simp only [pollLoop, PollOut.polling.injEq] at h
      subst h
      exact ⟨by simp [streak_nil], neverAbove_nil _ _ hr⟩
    · intro h
      simp [pollLoop] at h
    · intro t size treeHash h
      simp [pollLoop] at h
  | append_singleton l a ih =>
    obtain ⟨ih1, ih2, ih3⟩ := ih
    rw [pollLoop_append]
    cases hl : pollLoop retries 0 l with
    | exit =>
      refine ⟨?_, ?_, ?_⟩
      · intro t h
        simp at h
      · intro _
        obtain ⟨k, hk, hna, hs⟩ := ih2 hl
        refine ⟨k, ?_, ?_, ?_⟩
        · simp only [List.length_append, List.length_singleton]
          omega
        · rw [List.take_append_of_le_length (le_of_lt hk)]
          exact hna
        · rw [List.take_append_of_le_length hk]
          exact hs
      · intro t size treeHash h
        simp at h
    | completed t0 size0 treeHash0 =>
      refine ⟨?_, ?_, ?_⟩
      · intro t h
        simp at h
      · intro h
        simp at h
      · intro t size treeHash h
        simp only [PollOut.completed.injEq] at h
        rw [← h.1]
        exact ih3 _ _ _ hl
    | polling t0 =>
      obtain ⟨ht0, hna⟩ := ih1 t0 hl
      have hle := neverAbove_self _ _ _ hna
      cases a with
      | err =>
        have hst : streak Poll.isErr (l ++ [Poll.err]) = streak Poll.isErr l + 1 := by
          rw [streak_concat]
          simp [Poll.isErr]
        by_cases hgt : t0 + 1 > retries
        · simp only [pollLoop, if_pos hgt]
          refine ⟨?_, ?_, ?_⟩
          · intro t h
            simp at h
          · intro _
            refine ⟨l.length, by simp, ?_, ?_⟩
            · rw [List.take_left]
              exact hna
            · rw [show l.length + 1 = (l ++ [(Poll.err : Poll D)]).length by simp,
                List.take_length, hst]
              push_cast
              omega
          · intro t size treeHash h
            simp at h
        · simp only [pollLoop, if_neg hgt]
          refine ⟨?_, ?_, ?_⟩
          · intro t h
            simp only [PollOut.polling.injEq] at h
            have hst2 : (streak Poll.isErr (l ++ [Poll.err]) : Int) = t := by
              rw [hst, ← h, ht0]
              push_cast
              rfl
            refine ⟨hst2.symm, neverAbove_concat _ _ _ _ hna ?_⟩
            rw [hst2, ← h]
            omega
          · intro h
            simp at h
          · intro t size treeHash h
            simp at h
      | job completed size treeHash =>
        have hst : streak Poll.isErr (l ++ [Poll.job completed size treeHash]) = 0 := by
          rw [streak_concat]
          simp [Poll.isErr]
        cases completed with
        | true =>
          simp only [pollLoop, if_true]
          refine ⟨?_, ?_, ?_⟩
          · intro t h
            simp at h
          · intro h
            simp at h
          · intro t size1 treeHash1 h
            simp only [PollOut.completed.injEq] at h
            exact h.1.symm
        | false =>
          simp only [pollLoop]
          refine ⟨?_, ?_, ?_⟩
          · intro t h
            simp only [Bool.false_eq_true, if_false, PollOut.polling.injEq] at h
            refine ⟨?_, neverAbove_concat _ _ _ _ hna ?_⟩
            · rw [hst, ← h]
              rfl
            · rw [hst]
              exact_mod_cast hr
          · intro h
            simp at h
          · intro t size1 treeHash1 h
            simp at h

/-! ## The download loop: the failure counter -/

/-- The three ways a pass can end: one of the failure branches that `continue`, the
branch that writes the file successfully, or the branch in which the write fails. -/
theorem loopBody_shape {H D : Type} [DecidableEq D] (th : TreeHasher H D)
    (retries : Int) (partSize : Nat) (s : DlState H) (srv : Server D) :
    ∃ s0 : DlState H, s0.n = s.n ∧ s0.try_ = s.try_ ∧ s0.log = s.log ∧
      ((∃ ev : Ev, ev.isFailure = true ∧
          loopBody th retries partSize s srv = countFailure retries ev s0) ∨
       loopBody th retries partSize s srv = .next (commit th s0) ∨
       loopBody th retries partSize s srv =
          match countFailure retries .writeErr s0 with
          | .exit msg s4 => .exit msg s4
          | .next s4 => .next (commit th s4)) := by
  unfold loopBody
  dsimp only
  split
  · refine ⟨_, ?_, ?_, ?_, Or.inl ⟨Ev.getErr, rfl, rfl⟩⟩ <;> rfl
  · split
    · refine ⟨_, ?_, ?_, ?_, Or.inl ⟨Ev.copyErr, rfl, rfl⟩⟩ <;> rfl
    · split
      · refine ⟨_, ?_, ?_, ?_, Or.inl ⟨Ev.mismatch, rfl, rfl⟩⟩ <;> rfl
      · split
        · refine ⟨_, ?_, ?_, ?_, Or.inr (Or.inl rfl)⟩ <;> rfl
        · refine ⟨_, ?_, ?_, ?_, Or.inr (Or.inr rfl)⟩ <;> rfl

theorem countFailure_counts {H : Type} (retries : Int) (ev : Ev) (hev : ev.isFailure = true)
    (s : DlState H) (hs : s.try_ = (streak Ev.isFailure s.log : Int))
    (hna : NeverAbove Ev.isFailure retries s.log) :
    (∀ s1, countFailure retries ev s = .next s1 →
      s1.n = s.n ∧ s1.try_ = (streak Ev.isFailure s1.log : Int) ∧
        NeverAbove Ev.isFailure retries s1.log) ∧
    (∀ msg s1, countFailure retries ev s = .exit msg s1 →
      msg = .tooManyRetries ∧ s1.try_ = retries + 1 ∧
        ∃ l e, s1.log = l ++ [e] ∧ NeverAbove Ev.isFailure retries l ∧
          (streak Ev.isFailure (l ++ [e]) : Int) = retries + 1) := by
  have hst : (streak Ev.isFailure (s.log ++ [ev]) : Int) = s.try_ + 1 := by
    rw [streak_concat, if_pos hev, hs]
    push_cast
    rfl
  have hle := neverAbove_self _ _ _ hna
  rcases countFailure_cases retries ev s with ⟨hc, h⟩ | ⟨hc, h⟩
  · rw [h]
    refine ⟨?_, ?_⟩
    · intro s1 h1
      simp only [Step.next.injEq] at h1
      subst h1
      refine ⟨rfl, hst.symm, neverAbove_concat _ _ _ _ hna ?_⟩
      rw [hst]
      exact hc
    · intro msg s1 h1
      simp at h1
  · rw [h]
    refine ⟨?_, ?_⟩
    · intro s1 h1
      simp at h1
    · intro msg s1 h1
      simp only [Step.exit.injEq] at h1
      obtain ⟨hm, h1⟩ := h1
      subst h1
      have heq : s.try_ + 1 = retries + 1 := by
        rw [← hs] at hle
        omega
      refine ⟨hm.symm, heq, s.log, ev, rfl, hna, ?_⟩
      rw [hst, heq]

theorem commit_counts {H D : Type} (th : TreeHasher H D) (retries : Int) (hr : 0 ≤ retries)
    (s : DlState H) (hna : NeverAbove Ev.isFailure retries s.log) :
    (commit th s).try_ = (streak Ev.isFailure (commit th s).log : Int) ∧
      NeverAbove Ev.isFailure retries (commit th s).log := by
  have hst : streak Ev.isFailure (s.log ++ [Ev.copied]) = 0 := by
    rw [streak_concat]
    simp [Ev.isFailure]
  refine ⟨?_, neverAbove_concat _ _ _ _ hna ?_⟩
  · show (0 : Int) = (streak Ev.isFailure (s.log ++ [Ev.copied]) : Int)
    rw [hst]
    rfl
  · rw [hst]
    exact_mod_cast hr

theorem loopBody_counts {H D : Type} [DecidableEq D] (th : TreeHasher H D)
    (retries : Int) (hr : 0 ≤ retries) (partSize : Nat) (s : DlState H) (srv : Server D)
    (hs : s.try_ = (streak Ev.isFailure s.log : Int))
    (hna : NeverAbove Ev.isFailure retries s.log) :
    (∀ s1, loopBody th retries partSize s srv = .next s1 →
      s1.try_ = (streak Ev.isFailure s1.log : Int) ∧
        NeverAbove Ev.isFailure retries s1.log) ∧
    (∀ msg s1, loopBody th retries partSize s srv = .exit msg s1 →
      msg = .tooManyRetries ∧ s1.try_ = retries + 1 ∧
        ∃ l e, s1.log = l ++ [e] ∧ NeverAbove Ev.isFailure retries l ∧
          (streak Ev.isFailure (l ++ [e]) : Int) = retries + 1) := by
  obtain ⟨s0, _, ht, hl, hshape⟩ := loopBody_shape th retries partSize s srv
  have hs0 : s0.try_ = (streak Ev.isFailure s0.log : Int) := by rw [ht, hl]; exact hs
  have hna0 : NeverAbove Ev.isFailure retries s0.log := by rw [hl]; exact hna
  rcases hshape with ⟨ev, hev, h⟩ | h | h
  · rw [h]
    obtain ⟨h1, h2⟩ := countFailure_counts retries ev hev s0 hs0 hna0
    exact ⟨fun s1 e => (h1 s1 e).2, h2⟩
  · rw [h]
    refine ⟨?_, ?_⟩
    · intro s1 h1
      simp only [Step.next.injEq] at h1
      subst h1
      exact commit_counts th retries hr s0 hna0
    · intro msg s1 h1
      simp at h1
  · rw [h]
    obtain ⟨h1, h2⟩ := countFailure_counts retries Ev.writeErr rfl s0 hs0 hna0
    cases hc : countFailure retries Ev.writeErr s0 with
    | exit msg s4 =>
      refine ⟨?_, ?_⟩
      · intro s1 e
        simp at e
      · intro msg1 s1 e
        simp only [Step.exit.injEq] at e
        obtain ⟨e1, e2⟩ := e
        subst e1 e2
        exact h2 _ _ hc
    | next s4 =>
      refine ⟨?_, ?_⟩
      · intro s1 e
        simp only [Step.next.injEq] at e
        subst e
        exact commit_counts th retries hr s4 (h1 s4 hc).2.2
      · intro msg1 s1 e
        simp at e

theorem downloadLoop_counts {H D : Type} [DecidableEq D] (th : TreeHasher H D)
    (retries : Int) (hr : 0 ≤ retries) (partSize size : Nat) (servers : List (Server D)) :
    ∀ s : DlState H, s.try_ = (streak Ev.isFailure s.log : Int) →
      NeverAbove Ev.isFailure retries s.log →
      (∀ msg s1, downloadLoop th retries partSize size s servers = .exit msg s1 →
        msg = .tooManyRetries ∧ s1.try_ = retries + 1 ∧
          ∃ l e, s1.log = l ++ [e] ∧ NeverAbove Ev.isFailure retries l ∧
            (streak Ev.isFailure (l ++ [e]) : Int) = retries + 1) ∧
      (∀ s1, (downloadLoop th retries partSize size s servers = .running s1 ∨
          downloadLoop th retries partSize size s servers = .done s1) →
        s1.try_ = (streak Ev.isFailure s1.log : Int) ∧
          NeverAbove Ev.isFailure retries s1.log) := by
  induction servers with
  | nil =>
    intro s hs hna
    unfold downloadLoop
    refine ⟨?_, ?_⟩
    · intro msg s1 h
      split at h <;> simp at h
    · intro s1 h
      split at h
      · rcases h with h | h
        · simp only [Outcome.running.injEq] at h
          subst h
          exact ⟨hs, hna⟩
        · simp at h
      · rcases h with h | h
        · simp at h
        · simp only [Outcome.done.injEq] at h
          subst h
          exact ⟨hs, hna⟩
  | cons srv rest ih =>
    intro s hs hna
    obtain ⟨hb1, hb2⟩ := loopBody_counts th retries hr partSize s srv hs hna
    unfold downloadLoop
    by_cases hn : s.n < size
    · simp only [if_pos hn]
      cases hc : loopBody th retries partSize s srv with
      | exit msg0 s0 =>
        refine ⟨?_, ?_⟩
        · intro msg s1 h
          simp only [Outcome.exit.injEq] at h
          obtain ⟨e1, e2⟩ := h
          subst e1 e2
          exact hb2 _ _ hc
        · intro s1 h
          rcases h with h | h <;> simp at h
      | next s0 =>
        obtain ⟨h1, h2⟩ := hb1 s0 hc
        exact ih s0 h1 h2
    · simp only [if_neg hn]
      refine ⟨?_, ?_⟩
      · intro msg s1 h
        simp at h
      · intro s1 h
        rcases h with h | h
        · simp at h
        · simp only [Outcome.done.injEq] at h
          subst h
          exact ⟨hs, hna⟩

/-- A pass whose answer is a failure of the window runs one of the three branches
that count the failure and `continue`. -/
theorem loopBody_of_fails {H D : Type} [DecidableEq D] (th : TreeHasher H D)
    (retries : Int) (partSize : Nat) (s : DlState H) (srv : Server D)
    (hf : answerFails th partSize s srv = true) :
    ∃ (ev : Ev) (s0 : DlState H), ev.isFailure = true ∧ s0.n = s.n ∧ s0.try_ = s.try_ ∧
      s0.file = s.file ∧ s0.log = s.log ∧
      loopBody th retries partSize s srv = countFailure retries ev s0 := by
  unfold answerFails at hf
  dsimp only at hf
  unfold loopBody
  dsimp only
  by_cases hg : (srv (window partSize s.n).1 (window partSize s.n).2).getErr = true
  · rw [if_pos hg]
    refine ⟨Ev.getErr, _, rfl, ?_, ?_, ?_, ?_, rfl⟩ <;> rfl
  · rw [if_neg hg]
    by_cases hc : (srv (window partSize s.n).1 (window partSize s.n).2).copyErr = true
    · rw [if_pos hc]
      refine ⟨Ev.copyErr, _, rfl, ?_, ?_, ?_, ?_, rfl⟩ <;> rfl
    · rw [if_neg hc]
      have hm : (srv (window partSize s.n).1 (window partSize s.n).2).treeHash ≠
          th.treeHash (th.close (th.write s.hasher
            (s.buffer ++ (srv (window partSize s.n).1 (window partSize s.n).2).body))) := by
        simpa [hg, hc] using hf
      rw [if_pos hm]
      refine ⟨Ev.mismatch, _, rfl, ?_, ?_, ?_, ?_, rfl⟩ <;> rfl

/-- A pass whose answer is a failure of the window adds one to the counter and logs
the failure; it goes on with `n` and the file unchanged when the counter does not
exceed `retries`, and exits with "too many retries" when it does. -/
theorem failing_pass {H D : Type} [DecidableEq D] (th : TreeHasher H D)
    (retries : Int) (partSize : Nat) (s : DlState H) (srv : Server D)
    (hf : answerFails th partSize s srv = true) :
    ∃ (ev : Ev) (s1 : DlState H), ev.isFailure = true ∧
      (loopBody th retries partSize s srv).state = s1 ∧
      s1.try_ = s.try_ + 1 ∧ s1.n = s.n ∧ s1.file = s.file ∧ s1.log = s.log ++ [ev] ∧
      (s.try_ + 1 ≤ retries → loopBody th retries partSize s srv = .next s1) ∧
      (retries < s.try_ + 1 → loopBody th retries partSize s srv = .exit .tooManyRetries s1)
      := by
  obtain ⟨ev, s0, hev, hn, ht, hfile, hlog, hbody⟩ :=
    loopBody_of_fails th retries partSize s srv hf
  refine ⟨ev, { s0 with try_ := s0.try_ + 1, log := s0.log ++ [ev] }, hev, ?_, ?_, hn, hfile,
    ?_, ?_, ?_⟩
  · rw [hbody, countFailure_state]
  · show s0.try_ + 1 = s.try_ + 1
    rw [ht]
  · show s0.log ++ [ev] = s.log ++ [ev]
    rw [hlog]
  · intro hle
    rcases countFailure_cases retries ev s0 with ⟨_, hc⟩ | ⟨hlt, _⟩
    · rw [hbody, hc]
    · rw [ht] at hlt
      exact absurd hle (not_le.mpr hlt)
  · intro hlt
    rcases countFailure_cases retries ev s0 with ⟨hle, _⟩ | ⟨_, hc⟩
    · rw [ht] at hle
      exact absurd hle (not_le.mpr hlt)
    · rw [hbody, hc]

/-- A pass whose answer is not a failure of the window and whose write succeeds
appends the buffer to the file, advances `n` by its length, logs "copied to file" and
sets the counter to zero. -/
theorem written_pass {H D : Type} [DecidableEq D] (th : TreeHasher H D)
    (retries : Int) (partSize : Nat) (s : DlState H) (srv : Server D)
    (hf : answerFails th partSize s srv = false)
    (hw : (srv (window partSize s.n).1 (window partSize s.n).2).writeFail = none) :
    ∃ s1, loopBody th retries partSize s srv = .next s1 ∧ s1.try_ = 0 ∧
      s1.file = s.file ++ (s.buffer ++
        (srv (window partSize s.n).1 (window partSize s.n).2).body) ∧
      s1.n = u64 (s.n + (s.buffer ++
        (srv (window partSize s.n).1 (window partSize s.n).2).body).length) ∧
      s1.log = s.log ++ [Ev.copied] := by
  unfold answerFails at hf
  dsimp only at hf
  simp only [Bool.or_eq_false_iff, decide_eq_false_iff_not, not_not] at hf
  obtain ⟨⟨hg, hc⟩, hm⟩ := hf
  refine ⟨commit th { s with
      requests := s.requests ++ [window partSize s.n]
      buffer := s.buffer ++ (srv (window partSize s.n).1 (window partSize s.n).2).body
      hasher := th.close (th.write s.hasher
        (s.buffer ++ (srv (window partSize s.n).1 (window partSize s.n).2).body))
      file := s.file ++ (s.buffer ++
        (srv (window partSize s.n).1 (window partSize s.n).2).body) }, ?_, rfl, rfl, rfl, rfl⟩
  unfold loopBody
  dsimp only
  rw [if_neg (by simp [hg]), if_neg (by simp [hc]), if_neg (by simp [hm])]
  simp only [hw]

/-- A pass whose answer is not a failure of the window and that does not exit has
logged "copied to file" last and has set the counter to zero, whether the write
succeeded or not. -/
theorem verified_pass_resets {H D : Type} [DecidableEq D] (th : TreeHasher H D)
    (retries : Int) (partSize : Nat) (s : DlState H) (srv : Server D) (s1 : DlState H)
    (hf : answerFails th partSize s srv = false)
    (h : loopBody th retries partSize s srv = .next s1) :
    s1.try_ = 0 ∧ ∃ l, s1.log = l ++ [Ev.copied] := by
  unfold answerFails at hf
  dsimp only at hf
  simp only [Bool.or_eq_false_iff, decide_eq_false_iff_not, not_not] at hf
  obtain ⟨⟨hg, hc⟩, hm⟩ := hf
  unfold loopBody at h
  dsimp only at h
  rw [if_neg (by simp [hg]), if_neg (by simp [hc]), if_neg (by simp [hm])] at h
  split at h
  · simp only [Step.next.injEq] at h
    subst h
    exact ⟨rfl, _, rfl⟩
  · split at h
    · simp at h
    · simp only [Step.next.injEq] at h
      subst h
      exact ⟨rfl, _, rfl⟩

/-- Consecutive failures of one window, counted from any state of the loop: as long
as the counter does not exceed `retries` the loop goes on with the counter raised by
the number of failures; the failure that raises it to `retries + 1` ends the run. -/
theorem failing_run {H D : Type} [DecidableEq D] (th : TreeHasher H D)
    (retries : Int) (partSize size : Nat) (fs : List (Server D)) :
    ∀ s : DlState H, failingPasses th retries partSize s fs = true → s.n < size →
      (s.try_ + (fs.length : Int) ≤ retries →
        ∃ s1, s1.try_ = s.try_ + (fs.length : Int) ∧ s1.n = s.n ∧ s1.file = s.file ∧
          ∀ rest, downloadLoop th retries partSize size s (fs ++ rest) =
            downloadLoop th retries partSize size s1 rest) ∧
      (s.try_ + (fs.length : Int) = retries + 1 → fs ≠ [] →
        ∃ s1, s1.try_ = retries + 1 ∧ s1.n = s.n ∧ s1.file = s.file ∧
          ∀ rest, downloadLoop th retries partSize size s (fs ++ rest) =
            .exit .tooManyRetries s1) := by
  induction fs with
  | nil =>
    intro s _ _
    refine ⟨?_, ?_⟩
    · intro _
      exact ⟨s, by simp, rfl, rfl, fun rest => rfl⟩
    · intro _ hne
      exact absurd rfl hne
  | cons srv fs ih =>
    intro s hfp hn
    simp only [failingPasses, Bool.and_eq_true] at hfp
    obtain ⟨hf, hrest⟩ := hfp
    obtain ⟨ev, s1, _, hst, ht, hn1, hfile1, _, hnext, hexit⟩ :=
      failing_pass th retries partSize s srv hf
    rw [hst] at hrest
    have hlen : ((srv :: fs).length : Int) = (fs.length : Int) + 1 := by
      simp
    obtain ⟨ih1, ih2⟩ := ih s1 hrest (hn1 ▸ hn)
    refine ⟨?_, ?_⟩
    · intro hle
      rw [hlen] at hle
      have hfs : (0 : Int) ≤ (fs.length : Int) := Int.natCast_nonneg _
      obtain ⟨s2, h2t, h2n, h2f, h2⟩ := ih1 (by rw [ht]; omega)
      refine ⟨s2, ?_, ?_, ?_, ?_⟩
      · rw [h2t, ht, hlen]
        omega
      · rw [h2n, hn1]
      · rw [h2f, hfile1]
      · intro rest
        rw [List.cons_append]
        simp only [downloadLoop, if_pos hn, hnext (by omega)]
        exact h2 rest
    · intro heq _
      rw [hlen] at heq
      have hfs : (0 : Int) ≤ (fs.length : Int) := Int.natCast_nonneg _
      by_cases hnil : fs = []
      · subst hnil
        simp only [List.length_nil, Nat.cast_zero, zero_add] at heq
        refine ⟨s1, ?_, hn1, hfile1, ?_⟩
        · rw [ht, heq]
        · intro rest
          rw [List.cons_append]
          simp only [downloadLoop, if_pos hn, hexit (by omega)]
      · have hpos : (0 : Int) < (fs.length : Int) := by
          have := List.length_pos.mpr hnil
          exact_mod_cast this
        obtain ⟨s2, h2t, h2n, h2f, h2⟩ := ih2 (by rw [ht]; omega) hnil
        refine ⟨s2, h2t, ?_, ?_, ?_⟩
        · rw [h2n, hn1]
        · rw [h2f, hfile1]
        · intro rest
          rw [List.cons_append]
          simp only [downloadLoop, if_pos hn, hnext (by omega)]
          exact h2 rest

/-- C6: with a non-negative ceiling `retries`.  Polling loop: while it runs, `try` is
the number of consecutive errors at the end of the answers of `DescribeJob`, never
above `retries`; it exits only at the first error that makes this number
`retries + 1`; it is left with `try = 0`, which is the value the download loop starts
with.  Download loop: a pass whose answer is a failure of the window (error of
`GetRetrievalJob`, error of `io.Copy`, tree hash mismatch) adds one to `try`, logs
the failure, and exits with "too many retries" exactly when `try` then exceeds
`retries`; a pass that verifies and writes the window sets `try` to zero and logs
"copied to file", and so does every pass that verifies and does not exit; so from a
zero counter, `k ≤ retries` failing answers in a row
leave the loop running with `try = k` on the same window, and `retries + 1` failing
answers in a row end it in "too many retries", whatever answers were still to come.
Over a whole run `try` is the number of consecutive failures at the end of the log. -/
theorem retry_counter_contract {H D : Type} [DecidableEq D] (th : TreeHasher H D)
    (retries : Int) (hr : 0 ≤ retries) (partSize : Nat) (ps : List (Poll D))
    (existing : List Byte) (servers : List (Server D)) :
    (∀ t, pollLoop retries 0 ps = .polling t →
      t = (streak Poll.isErr ps : Int) ∧ NeverAbove Poll.isErr retries ps) ∧
    (pollLoop retries 0 ps = .exit →
      ∃ k, k < ps.length ∧ NeverAbove Poll.isErr retries (ps.take k) ∧
        (streak Poll.isErr (ps.take (k + 1)) : Int) = retries + 1) ∧
    (∀ t size treeHash, pollLoop retries 0 ps = .completed t size treeHash →
      t = 0 ∧
      (∀ msg s,
        downloadLoop th retries partSize size (initState th t existing) servers
          = .exit msg s →
        msg = .tooManyRetries ∧ s.try_ = retries + 1 ∧
          ∃ l e, s.log = l ++ [e] ∧ NeverAbove Ev.isFailure retries l ∧
            (streak Ev.isFailure (l ++ [e]) : Int) = retries + 1) ∧
      (∀ s,
        (downloadLoop th retries partSize size (initState th t existing) servers
            = .running s ∨
          downloadLoop th retries partSize size (initState th t existing) servers
            = .done s) →
        s.try_ = (streak Ev.isFailure s.log : Int) ∧
          NeverAbove Ev.isFailure retries s.log ∧
          ∀ l, s.log = l ++ [Ev.copied] → s.try_ = 0) ∧
      (∀ fs : List (Server D),
        failingPasses th retries partSize (initState th t existing) fs = true → 0 < size →
        ((fs.length : Int) ≤ retries →
          ∃ s1 : DlState H, s1.try_ = (fs.length : Int) ∧ s1.n = 0 ∧ s1.file = existing ∧
            downloadLoop th retries partSize size (initState th t existing) fs
              = .running s1) ∧
        ((fs.length : Int) = retries + 1 →
          ∃ s1 : DlState H, s1.n = 0 ∧ s1.file = existing ∧
            ∀ rest, downloadLoop th retries partSize size (initState th t existing)
              (fs ++ rest) = .exit .tooManyRetries s1))) ∧
    (∀ (s : DlState H) (srv : Server D), answerFails th partSize s srv = true →
      ∃ (ev : Ev) (s1 : DlState H), ev.isFailure = true ∧
        (loopBody th retries partSize s srv).state = s1 ∧
        s1.try_ = s.try_ + 1 ∧ s1.n = s.n ∧ s1.file = s.file ∧ s1.log = s.log ++ [ev] ∧
        (s.try_ + 1 ≤ retries → loopBody th retries partSize s srv = .next s1) ∧
        (retries < s.try_ + 1 →
          loopBody th retries partSize s srv = .exit .tooManyRetries s1)) ∧
    (∀ (s : DlState H) (srv : Server D), answerFails th partSize s srv = false →
      (srv (window partSize s.n).1 (window partSize s.n).2).writeFail = none →
      ∃ s1, loopBody th retries partSize s srv = .next s1 ∧ s1.try_ = 0 ∧
        s1.log = s.log ++ [Ev.copied]) ∧
    (∀ (s : DlState H) (srv : Server D) (s1 : DlState H),
      answerFails th partSize s srv = false →
      loopBody th retries partSize s srv = .next s1 →
      s1.try_ = 0 ∧ ∃ l, s1.log = l ++ [Ev.copied]) ∧
    (∀ (s : DlState H) (size : Nat) (fs : List (Server D)), s.try_ = 0 → s.n < size →
      failingPasses th retries partSize s fs = true →
      ((fs.length : Int) ≤ retries →
        ∃ s1, s1.try_ = (fs.length : Int) ∧ s1.n = s.n ∧ s1.file = s.file ∧
          downloadLoop th retries partSize size s fs = .running s1) ∧
      ((fs.length : Int) = retries + 1 →
        ∃ s1, s1.n = s.n ∧ s1.file = s.file ∧
          ∀ rest, downloadLoop th retries partSize size s (fs ++ rest) =
            .exit .tooManyRetries s1)) := by
  have hwindow : ∀ (s : DlState H) (size : Nat) (fs : List (Server D)), s.try_ = 0 →
      s.n < size → failingPasses th retries partSize s fs = true →
      ((fs.length : Int) ≤ retries →
        ∃ s1, s1.try_ = (fs.length : Int) ∧ s1.n = s.n ∧ s1.file = s.file ∧
          downloadLoop th retries partSize size s fs = .running s1) ∧
      ((fs.length : Int) = retries + 1 →
        ∃ s1, s1.n = s.n ∧ s1.file = s.file ∧
          ∀ rest, downloadLoop th retries partSize size s (fs ++ rest) =
            .exit .tooManyRetries s1) := by
    intro s size fs h0 hn hfp
    obtain ⟨hA, hB⟩ := failing_run th retries partSize size fs s hfp hn
    refine ⟨?_, ?_⟩
    · intro hle
      obtain ⟨s1, h1t, h1n, h1f, h1⟩ := hA (by rw [h0]; omega)
      refine ⟨s1, by rw [h1t, h0]; omega, h1n, h1f, ?_⟩
      have := h1 []
      rw [List.append_nil] at this
      rw [this]
      simp only [downloadLoop, if_pos (h1n ▸ hn)]
    · intro heq
      have hne : fs ≠ [] := by
        intro hnil
        subst hnil
        simp only [List.length_nil, Nat.cast_zero] at heq
        omega
      obtain ⟨s1, _, h1n, h1f, h1⟩ := hB (by rw [h0]; omega) hne
      exact ⟨s1, h1n, h1f, h1⟩
  obtain ⟨hp1, hp2, hp3⟩ := pollLoop_counts retries hr ps
  refine ⟨hp1, hp2, ?_, ?_, ?_, ?_, hwindow⟩
  · intro t size treeHash hp
    have ht : t = 0 := hp3 t size treeHash hp
    subst ht
    have hinit : (initState th 0 existing).try_ =
        (streak Ev.isFailure (initState th 0 existing).log : Int) := by
      simp [initState, streak_nil]
    obtain ⟨hd1, hd2⟩ := downloadLoop_counts th retries hr partSize size servers
      (initState th 0 existing) hinit (neverAbove_nil _ _ hr)
    refine ⟨rfl, hd1, ?_, ?_⟩
    · intro s hs
      obtain ⟨h1, h2⟩ := hd2 s hs
      refine ⟨h1, h2, ?_⟩
      intro l hl
      rw [h1, hl, streak_concat]
      simp [Ev.isFailure]
    · intro fs hfp hsize
      exact hwindow (initState th 0 existing) size fs rfl hsize hfp
  · intro s srv hf
    exact failing_pass th retries partSize s srv hf
  · intro s srv hf hw
    obtain ⟨s1, h1, h2, _, _, h3⟩ := written_pass th retries partSize s srv hf hw
    exact ⟨s1, h1, h2, h3⟩
  · intro s srv s1 hf h
    exact verified_pass_resets th retries partSize s srv s1 hf h

/-- Witness for C6: with `retries = 1`, two errors of `DescribeJob` in a row end the
polling loop; after an error and a completed poll the download loop starts with a
zero counter; one mismatching answer leaves it running with `try = 1`, and two
mismatching answers in a row end it, whatever answer follows. -/
theorem retry_counter_contract_witness :
    (0 : Int) ≤ 1 ∧
    (∃ k, k < [(Poll.err : Poll (List Byte)), Poll.err].length ∧
      NeverAbove Poll.isErr 1 ([(Poll.err : Poll (List Byte)), Poll.err].take k) ∧
      (streak Poll.isErr ([(Poll.err : Poll (List Byte)), Poll.err].take (k + 1)) : Int)
        = 1 + 1) ∧
    (ExitMsg.tooManyRetries = ExitMsg.tooManyRetries ∧ (2 : Int) = 1 + 1 ∧
      ∃ l e, [Ev.mismatch, Ev.mismatch] = l ++ [e] ∧ NeverAbove Ev.isFailure 1 l ∧
        (streak Ev.isFailure (l ++ [e]) : Int) = 1 + 1) ∧
    (∃ s1 : DlState (List Byte), s1.try_ = ([corruptAnswer].length : Int) ∧ s1.n = 0 ∧
      s1.file = [] ∧
      downloadLoop accHasher 1 1048576 2 (initState accHasher 0 []) [corruptAnswer]
        = .running s1) ∧
    (∃ s1 : DlState (List Byte), s1.n = 0 ∧ s1.file = [] ∧
      ∀ rest, downloadLoop accHasher 1 1048576 2 (initState accHasher 0 [])
        ([corruptAnswer, corruptAnswer] ++ rest) = .exit .tooManyRetries s1) :=
  ⟨by decide,
    (retry_counter_contract accHasher 1 (by decide) 1048576 [Poll.err, Poll.err] []
      [corruptAnswer, corruptAnswer]).2.1 (by decide),
    ((retry_counter_contract accHasher 1 (by decide) 1048576
      [Poll.err, Poll.job true 2 [1, 2]] []
      [corruptAnswer, corruptAnswer]).2.2.1 0 2 [1, 2] (by decide)).2.1
      ExitMsg.tooManyRetries
      { n := 0, try_ := 2, buffer := [1, 3, 1, 3], hasher := [1, 3, 1, 3, 1, 3], file := [],
        requests := [(0, 1048575), (0, 1048575)], log := [.mismatch, .mismatch] }
      (by decide),
    ((retry_counter_contract accHasher 1 (by decide) 1048576
      [Poll.err, Poll.job true 2 [1, 2]] []
      [corruptAnswer, corruptAnswer]).2.2.2.2.2.2 (initState accHasher 0 []) 2
      [corruptAnswer] rfl (by decide) (by decide)).1 (by decide),
    ((retry_counter_contract accHasher 1 (by decide) 1048576
      [Poll.err, Poll.job true 2 [1, 2]] []
      [corruptAnswer, corruptAnswer]).2.2.2.2.2.2 (initState accHasher 0 []) 2
      [corruptAnswer, corruptAnswer] rfl (by decide) (by decide)).2 (by decide)⟩

/-! ## The check of the entire file -/

theorem loopBody_fresh {H D : Type} [DecidableEq D] (th : TreeHasher H D)
    (retries : Int) (partSize : Nat) (s : DlState H) (srv : Server D) (s1 : DlState H)
    (h : loopBody th retries partSize s srv = .next s1) :
    FreshlyReset th s1.hasher ∨ s1.n = s.n := by
  obtain ⟨s0, hn, _, _, hshape⟩ := loopBody_shape th retries partSize s srv
  rcases hshape with ⟨ev, _, he⟩ | he | he
  · rw [he] at h
    rcases countFailure_cases retries ev s0 with ⟨_, hc⟩ | ⟨_, hc⟩
    · rw [hc] at h
      simp only [Step.next.injEq] at h
      subst h
      exact Or.inr hn
    · rw [hc] at h
      simp at h
  · rw [he] at h
    simp only [Step.next.injEq] at h
    subst h
    exact Or.inl (Or.inr ⟨_, rfl⟩)
  · rw [he] at h
    rcases countFailure_cases retries Ev.writeErr s0 with ⟨_, hc⟩ | ⟨_, hc⟩
    · rw [hc] at h
      simp only [Step.next.injEq] at h
      subst h
      exact Or.inl (Or.inr ⟨_, rfl⟩)
    · rw [hc] at h
      simp at h

theorem downloadLoop_done_fresh {H D : Type} [DecidableEq D] (th : TreeHasher H D)
    (retries : Int) (partSize size : Nat) (servers : List (Server D)) :
    ∀ s s1 : DlState H, (FreshlyReset th s.hasher ∨ s.n < size) →
      downloadLoop th retries partSize size s servers = .done s1 →
      FreshlyReset th s1.hasher := by
  induction servers with
  | nil =>
    intro s s1 hs h
    unfold downloadLoop at h
    split at h
    · simp at h
    · rename_i hn
      simp only [Outcome.done.injEq] at h
      subst h
      exact hs.resolve_right hn
  | cons srv rest ih =>
    intro s s1 hs h
    unfold downloadLoop at h
    split at h
    · rename_i hn
      cases hc : loopBody th retries partSize s srv with
      | exit msg s0 =>
        rw [hc] at h
        simp at h
      | next s0 =>
        rw [hc] at h
        refine ih s0 s1 ?_ h
        rcases loopBody_fresh th retries partSize s srv s0 hc with hf | hn0
        · exact Or.inl hf
        · exact Or.inr (hn0 ▸ hn)
    · rename_i hn
      simp only [Outcome.done.injEq] at h
      subst h
      exact hs.resolve_right hn

/-- C3: `run` ends without `os.Exit(1)` only if the download loop finished with the
hasher freshly reset and the tree hash of the whole destination file, fed to that
hasher from offset 0, equals the `SHA256TreeHash` of the completed job; and whenever
the download loop has finished and that tree hash differs, `run` ends in
`os.Exit(1)`, logging "entire file tree hash mismatch" unless the seek or the read
of the file failed. -/
theorem whole_file_check {H D : Type} [DecidableEq D] (th : TreeHasher H D)
    (retries : Int) (partSize : Nat) (env : RunEnv D) :
    (∀ sf, run th retries partSize env = .download (.done sf) →
      ∃ t size fullTreeHash s,
        pollLoop retries 0 env.polls = .completed t size fullTreeHash ∧
        downloadLoop th retries partSize size (initState th t env.existing) env.servers
          = .done s ∧
        FreshlyReset th s.hasher ∧ sf.file = s.file ∧
        th.treeHash (th.close (feed th s.hasher env.cuts s.file)) = fullTreeHash) ∧
    (∀ t size fullTreeHash s,
      env.initiateErr = false → env.openErr = false → partSize ≠ 0 →
      pollLoop retries 0 env.polls = .completed t size fullTreeHash →
      downloadLoop th retries partSize size (initState th t env.existing) env.servers
        = .done s →
      th.treeHash (th.close (feed th s.hasher env.cuts s.file)) ≠ fullTreeHash →
      ∃ msg sx, run th retries partSize env = .download (.exit msg sx) ∧
        (env.seekErr = false → env.readErr = false → msg = .wholeMismatch)) := by
  refine ⟨?_, ?_⟩
  · intro sf h
    unfold run at h
    split at h
    · simp at h
    · split at h
      · simp at h
      · simp at h
      · rename_i t size fullTreeHash hp
        split at h
        · simp at h
        · split at h
          · simp at h
          · split at h
            · simp at h
            · simp at h
            · rename_i s hd
              refine ⟨t, size, fullTreeHash, s, hp, hd, ?_, ?_, ?_⟩
              · exact downloadLoop_done_fresh th retries partSize size env.servers _ s
                  (Or.inl (Or.inl rfl)) hd
              · unfold verify at h
                split at h
                · simp at h
                · split at h
                  · simp at h
                  · dsimp only at h
                    split at h
                    · simp at h
                    · simp only [RunResult.download.injEq, Outcome.done.injEq] at h
                      subst h
                      rfl
              · unfold verify at h
                split at h
                · simp at h
                · split at h
                  · simp at h
                  · dsimp only at h
                    split at h
                    · simp at h
                    · rename_i hne
                      exact not_not.mp hne
  · intro t size fullTreeHash s hi ho hps hp hd hne
    unfold run
    rw [if_neg (by simp [hi])]
    simp only [hp]
    rw [if_neg (by simp [ho]), if_neg hps]
    simp only [hd]
    unfold verify
    by_cases hs : env.seekErr = true
    · exact ⟨_, _, by rw [if_pos hs], fun h => absurd hs (by simp [h])⟩
    · rw [if_neg hs]
      by_cases hre : env.readErr = true
      · exact ⟨_, _, by rw [if_pos hre], fun _ h => absurd hre (by simp [h])⟩
      · rw [if_neg hre]
        dsimp only
        exact ⟨_, _, by rw [if_pos hne], fun _ _ => rfl⟩

/-- Witness for C3: the clean run into a new file ends without exit and with the
whole-file tree hash equal to that of the job; the clean run into a file that already
held one byte finishes the loop and exits. -/
theorem whole_file_check_witness :
    (∃ t size fullTreeHash, ∃ s : DlState (List Byte),
      pollLoop 1 0 (cleanEnv []).polls = .completed t size fullTreeHash ∧
      downloadLoop accHasher 1 1048576 size (initState accHasher t (cleanEnv []).existing)
        (cleanEnv []).servers = .done s ∧
      FreshlyReset accHasher s.hasher ∧
      ({ n := 2, try_ := 0, buffer := [], hasher := [1, 2], file := [1, 2],
         requests := [(0, 1048575)], log := [Ev.copied] } : DlState (List Byte)).file = s.file ∧
      accHasher.treeHash (accHasher.close (feed accHasher s.hasher (cleanEnv []).cuts s.file))
        = fullTreeHash) ∧
    (∃ msg sx, run accHasher 1 1048576 (cleanEnv [7]) = .download (.exit msg sx) ∧
      ((cleanEnv [7]).seekErr = false → (cleanEnv [7]).readErr = false →
        msg = .wholeMismatch)) :=
  ⟨(whole_file_check accHasher 1 1048576 (cleanEnv [])).1
      { n := 2, try_ := 0, buffer := [], hasher := [1, 2], file := [1, 2],
        requests := [(0, 1048575)], log := [Ev.copied] } (by decide),
    (whole_file_check accHasher 1 1048576 (cleanEnv [7])).2 0 2 [1, 2]
      { n := 2, try_ := 0, buffer := [], hasher := [], file := [7, 1, 2],
        requests := [(0, 1048575)], log := [Ev.copied] }
      (by decide) (by decide) (by decide) (by decide) (by decide) (by decide)⟩

/-- C10, the code at a failing input: when the output name already holds the byte
`7`, the clean download of the archive `1, 2` leaves the loop with the file holding
`7, 1, 2` and `n = 2`, and `run` then exits with "entire file tree hash mismatch". -/
theorem existing_file_not_truncated :
    downloadLoop accHasher 1 1048576 2 (initState accHasher 0 (cleanEnv [7]).existing)
        (cleanEnv [7]).servers =
      .done { n := 2, try_ := 0, buffer := [], hasher := [], file := [7, 1, 2],
              requests := [(0, 1048575)], log := [Ev.copied] } ∧
    run accHasher 1 1048576 (cleanEnv [7]) =
      .download (.exit .wholeMismatch
        { n := 2, try_ := 0, buffer := [], hasher := [7, 1, 2], file := [7, 1, 2],
          requests := [(0, 1048575)], log := [Ev.copied] }) := by
  decide

/-! ## The download loop against a service that answers correctly -/

theorem window_eq (W n : Nat) (hW : 0 < W) (h : n + W ≤ 2 ^ 64) :
    window W n = (n, n + W - 1) := by
  have h64 : (2 : Nat) ^ 64 = 18446744073709551616 := by norm_num
  unfold window u64
  rw [h64] at h ⊢
  rw [Prod.mk.injEq]
  refine ⟨rfl, ?_⟩
  omega

theorem ceilDiv_pos (x W : Nat) (hW : 0 < W) (hx : 0 < x) :
    (x + W - 1) / W = (x - 1) / W + 1 := by
  rw [show x + W - 1 = (x - 1) + W by omega, Nat.add_div_right _ hW]

theorem take_append_drop_min (W : Nat) (l : List Byte) :
    l.take W ++ l.drop (min W l.length) = l := by
  by_cases h : W ≤ l.length
  · rw [Nat.min_eq_left h, List.take_append_drop]
  · have h1 : l.length ≤ W := by omega
    rw [Nat.min_eq_right h1, List.take_of_length_le h1, List.drop_length, List.append_nil]

theorem archiveServer_pass {H D : Type} [DecidableEq D] (th : TreeHasher H D)
    (retries : Int) (W : Nat) (archive : List Byte) (hW : 0 < W) (s : DlState H)
    (hbuf : s.buffer = []) (hh : s.hasher = th.new) (hwin : s.n + W ≤ 2 ^ 64) :
    loopBody th retries W s (archiveServer th archive) =
      .next (commit th { s with
        requests := s.requests ++ [(s.n, s.n + W - 1)]
        buffer := (archive.drop s.n).take W
        hasher := th.close (th.write th.new ((archive.drop s.n).take W))
        file := s.file ++ (archive.drop s.n).take W }) := by
  unfold loopBody
  rw [window_eq W s.n hW hwin]
  have hlen : s.n + W - 1 + 1 - s.n = W := by omega
  simp [archiveServer, hbuf, hh, hlen]

theorem archiveServer_loop {H D : Type} [DecidableEq D] (th : TreeHasher H D)
    (hreset : ∀ h, th.reset h = th.new) (retries : Int) (W : Nat) (archive : List Byte)
    (hW : 0 < W) (hS : archive.length + W ≤ 2 ^ 64) :
    ∀ (m : Nat) (s : DlState H), s.buffer = [] → s.hasher = th.new →
      s.n ≤ archive.length → (archive.length - s.n + W - 1) / W ≤ m →
      ∃ s1, downloadLoop th retries W archive.length s
          (List.replicate m (archiveServer th archive)) = .done s1 ∧
        s1.n = archive.length ∧ s1.file = s.file ++ archive.drop s.n ∧
        s1.requests = s.requests ++
          (List.range ((archive.length - s.n + W - 1) / W)).map
            (fun j => (s.n + j * W, s.n + j * W + W - 1)) := by
  intro m
  induction m with
  | zero =>
    intro s _ _ hn hm
    have hn2 : ¬ s.n < archive.length := by
      intro hlt
      rw [ceilDiv_pos _ W hW (by omega)] at hm
      exact absurd hm (Nat.not_succ_le_zero _)
    have hc : (archive.length - s.n + W - 1) / W = 0 := Nat.eq_zero_of_le_zero hm
    refine ⟨s, ?_, by omega, ?_, ?_⟩
    · simp [downloadLoop, hn2]
    · rw [List.drop_eq_nil_of_le (by omega), List.append_nil]
    · rw [hc]
      simp
  | succ m ih =>
    intro s hbuf hh hn hm
    by_cases hlt : s.n < archive.length
    · have hbody := archiveServer_pass th retries W archive hW s hbuf hh (by omega)
      have hblen : ((archive.drop s.n).take W).length = min W (archive.length - s.n) := by
        rw [List.length_take, List.length_drop]
      have hc := ceilDiv_pos (archive.length - s.n) W hW (by omega)
      obtain ⟨s1, hs1, hs1n, hs1buf, hs1h, hs1f, hs1r⟩ : ∃ s1 : DlState H,
          loopBody th retries W s (archiveServer th archive) = .next s1 ∧
          s1.n = s.n + min W (archive.length - s.n) ∧ s1.buffer = [] ∧ s1.hasher = th.new ∧
          s1.file = s.file ++ (archive.drop s.n).take W ∧
          s1.requests = s.requests ++ [(s.n, s.n + W - 1)] := by
        refine ⟨_, hbody, ?_, rfl, hreset _, rfl, rfl⟩
        show u64 (s.n + ((archive.drop s.n).take W).length) = _
        rw [hblen]
        have h64 : (2 : Nat) ^ 64 = 18446744073709551616 := by norm_num
        unfold u64
        rw [h64] at hS ⊢
        omega
      have hcount : (archive.length - s1.n + W - 1) / W =
          (archive.length - s.n - 1) / W := by
        rw [hs1n]
        by_cases hge : W ≤ archive.length - s.n
        · rw [Nat.min_eq_left hge]
          congr 1
          omega
        · rw [Nat.min_eq_right (by omega)]
          rw [Nat.div_eq_of_lt (by omega), Nat.div_eq_of_lt (by omega)]
      obtain ⟨s2, hs2, hs2n, hs2f, hs2r⟩ := ih s1 hs1buf hs1h (by rw [hs1n]; omega)
        (by rw [hcount]; rw [hc] at hm; exact Nat.le_of_succ_le_succ hm)
      refine ⟨s2, ?_, hs2n, ?_, ?_⟩
      · rw [List.replicate_succ]
        unfold downloadLoop
        rw [if_pos hlt, hs1]
        exact hs2
      · rw [hs2f, hs1f, hs1n, List.append_assoc]
        congr 1
        rw [← List.drop_drop, ← List.length_drop]
        exact take_append_drop_min W (archive.drop s.n)
      · rw [hs2r, hs1r, hcount, hc, List.range_succ_eq_map, List.append_assoc]
        congr 1
        rw [List.map_cons, List.map_map]
        simp only [Nat.zero_mul, Nat.add_zero, List.singleton_append, List.cons.injEq, true_and]
        apply List.map_congr_left
        intro j hj
        rw [List.mem_range] at hj
        have hge : W ≤ archive.length - s.n := by
          by_contra hcon
          rw [Nat.div_eq_of_lt (by omega)] at hj
          omega
        rw [hs1n, Nat.min_eq_left hge]
        simp only [Function.comp, Nat.succ_eq_add_one, Nat.add_mul, Nat.one_mul]
        congr 1 <;> omega
    · have hn2 : s.n = archive.length := by omega
      have hc : (archive.length - s.n + W - 1) / W = 0 := by
        rw [hn2, Nat.sub_self, Nat.zero_add]
        exact Nat.div_eq_of_lt (by omega)
      refine ⟨s, ?_, hn2, ?_, ?_⟩
      · rw [List.replicate_succ]
        unfold downloadLoop
        rw [if_neg hlt]
      · rw [List.drop_eq_nil_of_le (by omega), List.append_nil]
      · rw [hc]
        simp

/-- C4, counterexample: for an archive of 10 MiB fetched in windows of 4 MiB from a
service that answers every request correctly, the third request is for the range
`8388608, 12582911`, not for `8388608, 10485759`. -/
theorem last_window_not_clamped :
    ∃ s : DlState (List Byte),
      downloadLoop accHasher 1 4194304 (List.replicate 10485760 (0 : Byte)).length
          (initState accHasher 0 [])
          (List.replicate 3 (archiveServer accHasher (List.replicate 10485760 (0 : Byte))))
        = .done s ∧
      s.requests = [(0, 4194303), (4194304, 8388607), (8388608, 12582911)] ∧
      s.requests ≠ [(0, 4194303), (4194304, 8388607), (8388608, 10485759)] := by
  have hlen : (List.replicate 10485760 (0 : Byte)).length = 10485760 :=
    List.length_replicate _ _
  obtain ⟨s, hs, _, _, hr⟩ := archiveServer_loop accHasher (fun _ => rfl) 1 4194304
    (List.replicate 10485760 (0 : Byte)) (by norm_num) (by rw [hlen]; norm_num) 3
    (initState accHasher 0 []) rfl rfl (Nat.zero_le _) (by rw [hlen]; norm_num [initState])
  have hr2 : s.requests = [(0, 4194303), (4194304, 8388607), (8388608, 12582911)] := by
    rw [hr, hlen]
    simp [initState, List.range_succ]
  refine ⟨s, hs, hr2, ?_⟩
  rw [hr2]
  decide

/-- C4, amended: for an archive of `S` bytes and a window size `W > 0` with
`S + W ≤ 2 ^ 64`, when every fetch succeeds, verifies and returns the bytes of the
requested range that exist, the download loop finishes after exactly `ceil(S/W)`
requests, the `k`-th being for the range from `k*W` to `k*W + W - 1`: the end of the
last range is not limited to the archive size.  It has then appended the archive to
the file.  For `S` = 10 MiB and `W` = 4 MiB the ranges are `0, 4194303`,
`4194304, 8388607` and `8388608, 12582911`. -/
theorem requested_windows {H D : Type} [DecidableEq D] (th : TreeHasher H D)
    (hreset : ∀ h, th.reset h = th.new) (retries : Int) (W : Nat) (archive : List Byte)
    (existing : List Byte) (m : Nat) (hW : 0 < W) (hfit : archive.length + W ≤ 2 ^ 64)
    (hm : (archive.length + W - 1) / W ≤ m) :
    ∃ s, downloadLoop th retries W archive.length (initState th 0 existing)
        (List.replicate m (archiveServer th archive)) = .done s ∧
      s.requests.length = (archive.length + W - 1) / W ∧
      s.requests =
        (List.range ((archive.length + W - 1) / W)).map (fun k => (k * W, k * W + W - 1)) ∧
      s.n = archive.length ∧ s.file = existing ++ archive ∧
      (archive.length = 10485760 → W = 4194304 →
        s.requests = [(0, 4194303), (4194304, 8388607), (8388608, 12582911)]) := by
  obtain ⟨s, hs, hn, hf, hr⟩ := archiveServer_loop th hreset retries W archive hW hfit m
    (initState th 0 existing) rfl rfl (Nat.zero_le _) (by simpa [initState] using hm)
  have hr2 : s.requests =
      (List.range ((archive.length + W - 1) / W)).map (fun k => (k * W, k * W + W - 1)) := by
    rw [hr]
    simp [initState]
  refine ⟨s, hs, ?_, hr2, hn, ?_, ?_⟩
  · rw [hr2, List.length_map, List.length_range]
  · rw [hf]
    simp [initState]
  · intro hS hW2
    rw [hr2, hS, hW2]
    simp [List.range_succ]

/-- Witness for C4: an archive of 10 bytes fetched in windows of 4 bytes. -/
theorem requested_windows_witness :
    (0 < 4) ∧ ([1, 2, 3, 4, 5, 6, 7, 8, 9, 10] : List Byte).length + 4 ≤ 2 ^ 64 ∧
    (([1, 2, 3, 4, 5, 6, 7, 8, 9, 10] : List Byte).length + 4 - 1) / 4 ≤ 3 ∧
    ∃ s, downloadLoop accHasher 1 4 ([1, 2, 3, 4, 5, 6, 7, 8, 9, 10] : List Byte).length
        (initState accHasher 0 [])
        (List.replicate 3 (archiveServer accHasher [1, 2, 3, 4, 5, 6, 7, 8, 9, 10])) = .done s ∧
      s.requests.length = (([1, 2, 3, 4, 5, 6, 7, 8, 9, 10] : List Byte).length + 4 - 1) / 4 ∧
      s.requests =
        (List.range ((([1, 2, 3, 4, 5, 6, 7, 8, 9, 10] : List Byte).length + 4 - 1) / 4)).map
          (fun k => (k * 4, k * 4 + 4 - 1)) ∧
      s.n = ([1, 2, 3, 4, 5, 6, 7, 8, 9, 10] : List Byte).length ∧
      s.file = [] ++ [1, 2, 3, 4, 5, 6, 7, 8, 9, 10] ∧
      (([1, 2, 3, 4, 5, 6, 7, 8, 9, 10] : List Byte).length = 10485760 → 4 = 4194304 →
        s.requests = [(0, 4194303), (4194304, 8388607), (8388608, 12582911)]) :=
  ⟨by decide, by decide, by decide,
    requested_windows accHasher (fun _ => rfl) 1 4 [1, 2, 3, 4, 5, 6, 7, 8, 9, 10] [] 3
      (by decide) (by decide) (by decide)⟩

/-! ## `multipart init` -/

theorem partCount_eq_ceil (S P : Nat) (hP : 0 < P) : partCount S P = (S + P - 1) / P := by
  unfold partCount
  dsimp only
  have hmod := Nat.mod_lt S hP
  have hdm := Nat.div_add_mod S P
  have h1 : S + P - 1 = (S % P + P - 1) + P * (S / P) := by omega
  rw [h1, Nat.add_mul_div_left _ _ hP]
  by_cases hr : S % P > 0
  · have e1 : (S % P + P - 1) / P = 1 := by
      rw [ceilDiv_pos _ P hP hr, Nat.div_eq_of_lt (show S % P - 1 < P by omega)]
    rw [if_pos hr, e1, Nat.add_comm]
  · have e1 : (S % P + P - 1) / P = 0 := Nat.div_eq_of_lt (by omega)
    rw [if_neg hr, e1, Nat.zero_add]

theorem partCount_bounds (S P : Nat) (hP : 0 < P) (hN : 0 < partCount S P) :
    (partCount S P - 1) * P < S ∧ S ≤ partCount S P * P := by
  unfold partCount at hN ⊢
  dsimp only at hN ⊢
  have hmod := Nat.mod_lt S hP
  have hdm := Nat.div_add_mod S P
  rw [Nat.mul_comm] at hdm
  by_cases hr : S % P > 0
  · rw [if_pos hr]
    rw [Nat.add_sub_cancel, Nat.add_mul, Nat.one_mul]
    omega
  · rw [if_neg hr] at hN ⊢
    obtain ⟨q, hq⟩ : ∃ q, S / P = q + 1 := ⟨S / P - 1, by omega⟩
    rw [hq] at hdm ⊢
    rw [Nat.add_sub_cancel]
    rw [Nat.add_mul, Nat.one_mul] at hdm ⊢
    omega

theorem hashParts_spec {H D : Type} (th : TreeHasher H D) (P : Nat) (env : InitEnv) :
    ∀ (count i : Nat) (rest : List Byte) (h : H) (parts : List (multipartPart D))
      (fed : List (List Byte)),
      hashParts th P env count i rest h = some (parts, fed) →
      parts.length = count ∧ fed.length = count ∧ fed.flatten = rest.take (count * P) ∧
      ∀ j, j < count → (fed[j]?).map List.length = some (min P (rest.length - j * P)) := by
  intro count
  induction count with
  | zero =>
    intro i rest h parts fed hh
    simp only [hashParts, Option.some.injEq, Prod.mk.injEq] at hh
    obtain ⟨rfl, rfl⟩ := hh
    simp
  | succ c ih =>
    intro i rest h parts fed hh
    unfold hashParts at hh
    split at hh
    · simp at hh
    · dsimp only at hh
      split at hh
      · simp at hh
      · rename_i ps fd hrec
        simp only [Option.some.injEq, Prod.mk.injEq] at hh
        obtain ⟨rfl, rfl⟩ := hh
        obtain ⟨h1, h2, h3, h4⟩ := ih _ _ _ _ _ hrec
        refine ⟨by simp [h1], by simp [h2], ?_, ?_⟩
        · rw [List.flatten_cons, h3, Nat.add_mul, Nat.one_mul, Nat.add_comm, List.take_add]
        · intro j hj
          cases j with
          | zero => simp [List.length_take]
          | succ j =>
            have := h4 j (by omega)
            rw [List.getElem?_cons_succ, this, List.length_drop, Nat.add_mul, Nat.one_mul]
            congr 2
            omega

theorem hashParts_total {H D : Type} (th : TreeHasher H D) (P : Nat) (env : InitEnv)
    (herr : ∀ i, env.copyErr i = false) :
    ∀ (count i : Nat) (rest : List Byte) (h : H),
      ∃ parts fed, hashParts th P env count i rest h = some (parts, fed) := by
  intro count
  induction count with
  | zero =>
    intro i rest h
    exact ⟨[], [], rfl⟩
  | succ c ih =>
    intro i rest h
    obtain ⟨ps, fd, hrec⟩ := ih (i + 1) (rest.drop P)
      (th.reset (th.close (feed th h (env.cuts i) (rest.take P))))
    refine ⟨{ Hash := th.hash (th.close (feed th h (env.cuts i) (rest.take P))),
              TreeHash := th.treeHash (th.close (feed th h (env.cuts i) (rest.take P))),
              Uploaded := false } :: ps, rest.take P :: fd, ?_⟩
    unfold hashParts
    rw [if_neg (by simp [herr i])]
    dsimp only
    rw [hrec]

/-- C7: for a part size `P > 0` and a file of `S` bytes, `multipart init` writes a
session when no call fails, and every session it writes has `ceil(S/P)` part
records; the bytes read and hashed for each part are `P` for every part but the
last and `S - (ceil(S/P) - 1) * P`, a number from 1 to `P`, for the last; the
lengths add up to `S` and the parts in order make up the file. -/
theorem init_part_lengths {H D : Type} (th : TreeHasher H D)
    (vault fileName description : String) (P : Nat) (file : List Byte) (env : InitEnv)
    (hP : 0 < P) :
    (env.openErr = false → (∀ i, env.copyErr i = false) → env.sessionErr = false →
      ∃ data fed, multipartInit th vault fileName description P file env = .ok data fed) ∧
    (∀ data fed, multipartInit th vault fileName description P file env = .ok data fed →
      data.Parts.length = (file.length + P - 1) / P ∧
      fed.length = data.Parts.length ∧
      (∀ j, j + 1 < fed.length → (fed[j]?).map List.length = some P) ∧
      (0 < fed.length →
        (fed[fed.length - 1]?).map List.length = some (file.length - (fed.length - 1) * P) ∧
        1 ≤ file.length - (fed.length - 1) * P ∧
        file.length - (fed.length - 1) * P ≤ P) ∧
      (fed.map List.length).sum = file.length ∧
      fed.flatten = file) := by
  refine ⟨?_, ?_⟩
  · intro ho hc hs
    obtain ⟨parts, fed, hh⟩ := hashParts_total th P env hc (partCount file.length P) 0 file
      th.new
    refine ⟨{ Vault := vault, Description := description, PartSize := P,
              FileName := fileName, UploadId := "", Parts := parts }, fed, ?_⟩
    unfold multipartInit
    rw [if_neg (by simp [ho]), if_neg (by omega)]
    simp only [hh]
    rw [if_neg (by simp [hs])]
  · intro data fed hinit
    unfold multipartInit at hinit
    split at hinit
    · simp at hinit
    · split at hinit
      · simp at hinit
      · split at hinit
        · simp at hinit
        · rename_i parts fed0 hh
          split at hinit
          · simp at hinit
          · simp only [InitResult.ok.injEq] at hinit
            obtain ⟨rfl, rfl⟩ := hinit
            obtain ⟨h1, h2, h3, h4⟩ := hashParts_spec th P env _ _ _ _ _ _ hh
            have hjoin : fed0.flatten = file := by
              rw [h3]
              by_cases hN : 0 < partCount file.length P
              · exact List.take_of_length_le (partCount_bounds _ P hP hN).2
              · have h0 : partCount file.length P = 0 := by omega
                have hS : (file.length + P - 1) / P = 0 := by
                  rw [← partCount_eq_ceil _ _ hP, h0]
                have hlen : file.length = 0 := by
                  by_contra hne
                  rw [ceilDiv_pos _ P hP (by omega)] at hS
                  exact absurd hS (Nat.succ_ne_zero _)
                rw [List.length_eq_zero.mp hlen]
                simp
            refine ⟨?_, ?_, ?_, ?_, ?_, hjoin⟩
            · show parts.length = _
              rw [h1, partCount_eq_ceil _ _ hP]
            · show fed0.length = parts.length
              rw [h1, h2]
            · intro j hj
              rw [h2] at hj
              have hb := partCount_bounds file.length P hP (by omega)
              rw [h4 j (by omega)]
              congr 1
              have : (j + 1) * P ≤ (partCount file.length P - 1) * P :=
                Nat.mul_le_mul_right P (by omega)
              rw [Nat.add_mul, Nat.one_mul] at this
              omega
            · intro hpos
              rw [h2] at hpos ⊢
              have hb := partCount_bounds file.length P hP hpos
              rw [h4 _ (by omega)]
              obtain ⟨q, hq⟩ : ∃ q, partCount file.length P = q + 1 :=
                ⟨partCount file.length P - 1, by omega⟩
              rw [hq] at hb ⊢
              rw [Nat.add_sub_cancel] at hb ⊢
              rw [Nat.add_mul, Nat.one_mul] at hb
              refine ⟨?_, ?_, ?_⟩
              · congr 1
                omega
              · omega
              · omega
            · rw [← List.length_flatten, hjoin]

/-- Witness for C7: a file of 10 bytes hashed in parts of 4 bytes. -/
theorem init_part_lengths_witness :
    0 < 4 ∧
    (∃ data fed, multipartInit accHasher "vault" "archive" "" 4
      [1, 2, 3, 4, 5, 6, 7, 8, 9, 10] quietInit = .ok data fed) ∧
    (3 = (([1, 2, 3, 4, 5, 6, 7, 8, 9, 10] : List Byte).length + 4 - 1) / 4 ∧
      ([[1, 2, 3, 4], [5, 6, 7, 8], [9, 10]] : List (List Byte)).length = 3 ∧
      (∀ j, j + 1 < ([[1, 2, 3, 4], [5, 6, 7, 8], [9, 10]] : List (List Byte)).length →
        (([[1, 2, 3, 4], [5, 6, 7, 8], [9, 10]] : List (List Byte))[j]?).map List.length
          = some 4) ∧
      (0 < ([[1, 2, 3, 4], [5, 6, 7, 8], [9, 10]] : List (List Byte)).length →
        (([[1, 2, 3, 4], [5, 6, 7, 8], [9, 10]] : List (List Byte))[
            ([[1, 2, 3, 4], [5, 6, 7, 8], [9, 10]] : List (List Byte)).length - 1]?).map
          List.length = some (([1, 2, 3, 4, 5, 6, 7, 8, 9, 10] : List Byte).length -
            (([[1, 2, 3, 4], [5, 6, 7, 8], [9, 10]] : List (List Byte)).length - 1) * 4) ∧
        1 ≤ ([1, 2, 3, 4, 5, 6, 7, 8, 9, 10] : List Byte).length -
          (([[1, 2, 3, 4], [5, 6, 7, 8], [9, 10]] : List (List Byte)).length - 1) * 4 ∧
        ([1, 2, 3, 4, 5, 6, 7, 8, 9, 10] : List Byte).length -
          (([[1, 2, 3, 4], [5, 6, 7, 8], [9, 10]] : List (List Byte)).length - 1) * 4 ≤ 4) ∧
      (([[1, 2, 3, 4], [5, 6, 7, 8], [9, 10]] : List (List Byte)).map List.length).sum =
        ([1, 2, 3, 4, 5, 6, 7, 8, 9, 10] : List Byte).length ∧
      ([[1, 2, 3, 4], [5, 6, 7, 8], [9, 10]] : List (List Byte)).flatten =
        [1, 2, 3, 4, 5, 6, 7, 8, 9, 10]) :=
  ⟨by decide,
    (init_part_lengths accHasher "vault" "archive" "" 4 [1, 2, 3, 4, 5, 6, 7, 8, 9, 10]
      quietInit (by decide)).1 rfl (fun _ => rfl) rfl,
    (init_part_lengths accHasher "vault" "archive" "" 4 [1, 2, 3, 4, 5, 6, 7, 8, 9, 10]
      quietInit (by decide)).2
      { Vault := "vault", Description := "", PartSize := 4, FileName := "archive",
        UploadId := "",
        Parts := [{ Hash := [1, 2, 3, 4], TreeHash := [1, 2, 3, 4], Uploaded := false },
                  { Hash := [5, 6, 7, 8], TreeHash := [5, 6, 7, 8], Uploaded := false },
                  { Hash := [9, 10], TreeHash := [9, 10], Uploaded := false }] }
      [[1, 2, 3, 4], [5, 6, 7, 8], [9, 10]] rfl⟩

/-! ## `multipart upload` -/

theorem transmitted_append {D : Type} (a b : List (Call D)) :
    transmitted (a ++ b) = transmitted a ++ transmitted b := by
  induction a with
  | nil => rfl
  | cons c a ih =>
    cases c <;> simp [transmitted, ih]

theorem contiguous_concat {D : Type} (calls : List (Call D)) (at_ : Nat) (bytes : List Byte)
    (hc : Contiguous calls)
    (hat : at_ = ((transmitted calls).map (fun x => x.2.length)).sum) (hb : bytes ≠ []) :
    Contiguous (calls ++ [Call.uploadMultipart at_ bytes]) := by
  intro pre c post h
  rw [transmitted_append] at h
  simp only [transmitted] at h
  rcases List.eq_nil_or_concat post with rfl | ⟨post1, x, rfl⟩
  · have h2 := List.append_inj' h rfl
    obtain ⟨h3, h4⟩ := h2
    simp only [List.cons.injEq, and_true] at h4
    subst h3 h4
    exact ⟨hat, hb⟩
  · rw [List.concat_eq_append, ← List.cons_append, ← List.append_assoc] at h
    have h2 := List.append_inj' h rfl
    exact hc pre c post1 h2.1

theorem sum_lengths_eq {D : Type} (calls : List (Call D)) :
    ((transmitted calls).map (fun x => x.2.length)).sum = (sentBytes calls).length := by
  unfold sentBytes
  rw [List.length_flatten, List.map_map]
  rfl

theorem fileRead_cases (file : List Byte) (pos bufLen : Nat) (hb : 0 < bufLen)
    (c : ReadChoice) :
    ((fileRead file pos bufLen c).1 = [] ∧
      ((fileRead file pos bufLen c).2 = .other ∨
        ((fileRead file pos bufLen c).2 = .eof ∧ file.length ≤ pos))) ∨
    ((fileRead file pos bufLen c).1 ≠ [] ∧
      ∃ k, 0 < k ∧ (fileRead file pos bufLen c).1 = (file.drop pos).take k) := by
  cases c with
  | fail => exact Or.inl ⟨rfl, Or.inl rfl⟩
  | data k =>
    unfold fileRead
    dsimp only
    by_cases he : (file.drop pos).take (min (k + 1) bufLen) = []
    · rw [if_pos he]
      refine Or.inl ⟨rfl, Or.inr ⟨rfl, ?_⟩⟩
      have hl := congrArg List.length he
      rw [List.length_take, List.length_drop, List.length_nil] at hl
      omega
    · rw [if_neg he]
      exact Or.inr ⟨he, min (k + 1) bufLen, by omega, rfl⟩

theorem sentBytes_concat {D : Type} (calls : List (Call D)) (at_ : Nat) (bytes : List Byte) :
    sentBytes (calls ++ [Call.uploadMultipart at_ bytes]) = sentBytes calls ++ bytes := by
  unfold sentBytes
  rw [transmitted_append]
  simp [transmitted]

theorem take_add_min (file : List Byte) (pos k : Nat) (hpos : pos ≤ file.length) :
    file.take pos ++ (file.drop pos).take k = file.take (pos + min k (file.length - pos)) := by
  rw [← List.take_add]
  by_cases hk : k ≤ file.length - pos
  · rw [Nat.min_eq_left hk]
  · rw [Nat.min_eq_right (by omega), List.take_of_length_le (by omega),
      List.take_of_length_le (by omega)]

theorem uploadLoop_inv {D : Type} (file : List Byte) (hsize : file.length < 2 ^ 64)
    (steps : List UpStep) :
    ∀ s : UpState D, UpInv file s →
      (∀ msg s1, uploadLoop file s steps = .exit msg s1 →
        Contiguous s1.calls ∧ ∀ h sz, Call.completeMultipart h sz ∉ s1.calls) ∧
      (∀ s1, uploadLoop file s steps = .running s1 → UpInv file s1) ∧
      (∀ err s1, uploadLoop file s steps = .broke err s1 →
        UpInv file s1 ∧ (err = .other ∨ (err = .eof ∧ s1.pos = file.length))) := by
  induction steps with
  | nil =>
    intro s hs
    refine ⟨?_, ?_, ?_⟩
    · intro msg s1 h
      simp [uploadLoop] at h
    · intro s1 h
      simp only [uploadLoop, LoopEnd.running.injEq] at h
      subst h
      exact hs
    · intro err s1 h
      simp [uploadLoop] at h
  | cons e rest ih =>
    intro s hs
    obtain ⟨hat, hpos, hsent, hcont, hnc⟩ := hs
    unfold uploadLoop
    dsimp only
    rcases fileRead_cases file s.pos chunkSize (by decide) e.read with
      ⟨hnil, herr⟩ | ⟨hne, k, hk, hbytes⟩
    · have hlen : (fileRead file s.pos chunkSize e.read).1.length = 0 := by
        rw [hnil]
        rfl
      rw [if_pos hlen]
      refine ⟨?_, ?_, ?_⟩
      · intro msg s1 h
        simp at h
      · intro s1 h
        simp at h
      · intro err s1 h
        simp only [LoopEnd.broke.injEq] at h
        obtain ⟨h1, h2⟩ := h
        subst h1 h2
        refine ⟨⟨hat, hpos, hsent, hcont, hnc⟩, ?_⟩
        rcases herr with h3 | ⟨h3, h4⟩
        · exact Or.inl h3
        · exact Or.inr ⟨h3, by omega⟩
    · have hlen : ¬ (fileRead file s.pos chunkSize e.read).1.length = 0 := by
        intro h0
        exact hne (List.length_eq_zero.mp h0)
      rw [if_neg hlen]
      have hlen2 : (fileRead file s.pos chunkSize e.read).1.length =
          min k (file.length - s.pos) := by
        rw [hbytes, List.length_take, List.length_drop]
      have hsum : s.at_ = ((transmitted s.calls).map (fun x => x.2.length)).sum := by
        rw [sum_lengths_eq, hsent, List.length_take, hat]
        omega
      have hcont2 : Contiguous
          (s.calls ++ [Call.uploadMultipart s.at_ (fileRead file s.pos chunkSize e.read).1]) :=
        contiguous_concat _ _ _ hcont hsum hne
      have hnc2 : ∀ h sz, Call.completeMultipart h sz ∉
          s.calls ++ [Call.uploadMultipart s.at_ (fileRead file s.pos chunkSize e.read).1] := by
        intro h sz hmem
        rw [List.mem_append] at hmem
        rcases hmem with hm | hm
        · exact hnc h sz hm
        · simp at hm
      by_cases hup : e.uploadErr = true
      · rw [if_pos hup]
        refine ⟨?_, ?_, ?_⟩
        · intro msg s1 h
          simp only [LoopEnd.exit.injEq] at h
          obtain ⟨_, h2⟩ := h
          subst h2
          exact ⟨hcont2, hnc2⟩
        · intro s1 h
          simp at h
        · intro err s1 h
          simp at h
      · rw [if_neg hup]
        apply ih
        refine ⟨?_, ?_, ?_, hcont2, hnc2⟩
        · show u64 (s.at_ + (fileRead file s.pos chunkSize e.read).1.length) =
            s.pos + (fileRead file s.pos chunkSize e.read).1.length
          rw [hlen2, hat]
          have h64 : (2 : Nat) ^ 64 = 18446744073709551616 := by norm_num
          unfold u64
          rw [h64] at hsize ⊢
          omega
        · show s.pos + (fileRead file s.pos chunkSize e.read).1.length ≤ file.length
          rw [hlen2]
          omega
        · show sentBytes
              (s.calls ++ [Call.uploadMultipart s.at_ (fileRead file s.pos chunkSize e.read).1])
            = file.take (s.pos + (fileRead file s.pos chunkSize e.read).1.length)
          rw [sentBytes_concat, hsent, hlen2, hbytes]
          exact take_add_min file s.pos k hpos

/-- What holds of the calls made by `upload` at the end of any execution: the chunks
were sent contiguously from offset 0, and if the upload was completed the size
given is the read position, which is the end of the file. -/
theorem multipartUpload_calls {D : Type} (getTreeHash : List Byte → D) (file : List Byte)
    (env : UploadEnv) (hsize : file.length < 2 ^ 64) :
    Contiguous (multipartUpload getTreeHash file env).state.calls ∧
    (∀ h sz, Call.completeMultipart h sz ∈ (multipartUpload getTreeHash file env).state.calls →
      sz = file.length ∧
        sentBytes (multipartUpload getTreeHash file env).state.calls = file) := by
  have hinit : UpInv file
      ({ at_ := 0, pos := 0, calls := [Call.initiateMultipart chunkSize] } : UpState D) := by
    refine ⟨rfl, Nat.zero_le _, ?_, ?_, ?_⟩
    · simp [sentBytes, transmitted]
    · intro pre c post h
      simp [transmitted] at h
    · intro h sz hmem
      simp at hmem
  have hempty : Contiguous ([] : List (Call D)) ∧
      ∀ h sz, Call.completeMultipart h sz ∉ ([] : List (Call D)) := by
    refine ⟨?_, ?_⟩
    · intro pre c post h
      simp [transmitted] at h
    · intro h sz hmem
      simp at hmem
  obtain ⟨hl1, hl2, hl3⟩ := uploadLoop_inv file hsize env.steps _ hinit
  unfold multipartUpload
  dsimp only
  split
  · exact ⟨hempty.1, fun h sz hmem => absurd hmem (hempty.2 h sz)⟩
  · split
    · exact ⟨hinit.2.2.2.1, fun h sz hmem => absurd hmem (hinit.2.2.2.2 h sz)⟩
    · split
      · rename_i msg s hloop
        obtain ⟨h1, h2⟩ := hl1 msg s hloop
        exact ⟨h1, fun h sz hmem => absurd hmem (h2 h sz)⟩
      · rename_i s hloop
        obtain ⟨_, _, _, h1, h2⟩ := hl2 s hloop
        exact ⟨h1, fun h sz hmem => absurd hmem (h2 h sz)⟩
      · rename_i err s hloop
        obtain ⟨⟨hat, hpos, hsent, hcont, hnc⟩, herr⟩ := hl3 err s hloop
        have hno : Contiguous s.calls ∧
            ∀ h sz, Call.completeMultipart h sz ∈ s.calls →
              sz = file.length ∧ sentBytes s.calls = file :=
          ⟨hcont, fun h sz hmem => absurd hmem (hnc h sz)⟩
        split
        · exact hno
        · rename_i hnot
          have hend : s.pos = file.length := by
            rcases herr with h | ⟨_, h⟩
            · exact absurd h hnot
            · exact h
          have hyes : Contiguous
                (s.calls ++ [Call.completeMultipart (getTreeHash file) s.at_]) ∧
              ∀ h sz, Call.completeMultipart h sz ∈
                  s.calls ++ [Call.completeMultipart (getTreeHash file) s.at_] →
                sz = file.length ∧
                  sentBytes (s.calls ++ [Call.completeMultipart (getTreeHash file) s.at_])
                    = file := by
            have htr : transmitted
                (s.calls ++ [Call.completeMultipart (getTreeHash file) s.at_]) =
                transmitted s.calls := by
              rw [transmitted_append]
              simp [transmitted]
            refine ⟨?_, ?_⟩
            · intro pre c post h
              rw [htr] at h
              exact hcont pre c post h
            · intro h sz hmem
              rw [List.mem_append] at hmem
              rcases hmem with hm | hm
              · exact absurd hm (hnc h sz)
              · simp only [List.mem_singleton, Call.completeMultipart.injEq] at hm
                refine ⟨by rw [hm.2, hat, hend], ?_⟩
                unfold sentBytes
                rw [htr]
                show sentBytes s.calls = file
                rw [hsent, hend, List.take_length]
          split
          · exact hno
          · split
            · exact hno
            · split
              · exact hyes
              · exact hyes

theorem uploadLoop_calls {D : Type} (file : List Byte) (steps : List UpStep) :
    ∀ s : UpState D,
      (∀ msg s1, uploadLoop file s steps = .exit msg s1 → ∃ more, s1.calls = s.calls ++ more) ∧
      (∀ s1, uploadLoop file s steps = .running s1 → ∃ more, s1.calls = s.calls ++ more) ∧
      (∀ err s1, uploadLoop file s steps = .broke err s1 →
        ∃ more, s1.calls = s.calls ++ more) := by
  induction steps with
  | nil =>
    intro s
    refine ⟨?_, ?_, ?_⟩
    · intro msg s1 h
      simp [uploadLoop] at h
    · intro s1 h
      simp only [uploadLoop, LoopEnd.running.injEq] at h
      subst h
      exact ⟨[], by simp⟩
    · intro err s1 h
      simp [uploadLoop] at h
  | cons e rest ih =>
    intro s
    unfold uploadLoop
    dsimp only
    split
    · refine ⟨?_, ?_, ?_⟩
      · intro msg s1 h
        simp at h
      · intro s1 h
        simp at h
      · intro err s1 h
        simp only [LoopEnd.broke.injEq] at h
        obtain ⟨_, h2⟩ := h
        subst h2
        exact ⟨[], by simp⟩
    · split
      · refine ⟨?_, ?_, ?_⟩
        · intro msg s1 h
          simp only [LoopEnd.exit.injEq] at h
          obtain ⟨_, h2⟩ := h
          subst h2
          exact ⟨_, rfl⟩
        · intro s1 h
          simp at h
        · intro err s1 h
          simp at h
      · obtain ⟨h1, h2, h3⟩ := ih
          { at_ := u64 (s.at_ + (fileRead file s.pos chunkSize e.read).1.length),
            pos := s.pos + (fileRead file s.pos chunkSize e.read).1.length,
            calls := s.calls ++
              [Call.uploadMultipart s.at_ (fileRead file s.pos chunkSize e.read).1] }
        refine ⟨?_, ?_, ?_⟩
        · intro msg s1 h
          obtain ⟨more, hm⟩ := h1 msg s1 h
          exact ⟨[Call.uploadMultipart s.at_ (fileRead file s.pos chunkSize e.read).1] ++ more,
            hm.trans (List.append_assoc _ _ _)⟩
        · intro s1 h
          obtain ⟨more, hm⟩ := h2 s1 h
          exact ⟨[Call.uploadMultipart s.at_ (fileRead file s.pos chunkSize e.read).1] ++ more,
            hm.trans (List.append_assoc _ _ _)⟩
        · intro err s1 h
          obtain ⟨more, hm⟩ := h3 err s1 h
          exact ⟨[Call.uploadMultipart s.at_ (fileRead file s.pos chunkSize e.read).1] ++ more,
            hm.trans (List.append_assoc _ _ _)⟩

/-- When the source file could be opened, the first call `upload` makes is
`InitiateMultipart` with a part size of 1 MiB. -/
theorem multipartUpload_initiates {D : Type} (getTreeHash : List Byte → D)
    (file : List Byte) (env : UploadEnv) (ho : env.openErr = false) :
    ∃ more, (multipartUpload getTreeHash file env).state.calls =
      Call.initiateMultipart chunkSize :: more := by
  obtain ⟨h1, h2, h3⟩ := uploadLoop_calls file env.steps
    ({ at_ := 0, pos := 0, calls := [Call.initiateMultipart chunkSize] } : UpState D)
  unfold multipartUpload
  dsimp only
  rw [if_neg (by simp [ho])]
  split
  · exact ⟨[], rfl⟩
  · split
    · rename_i msg s hl
      obtain ⟨more, hm⟩ := h1 msg s hl
      exact ⟨more, by simpa using hm⟩
    · rename_i s hl
      obtain ⟨more, hm⟩ := h2 s hl
      exact ⟨more, by simpa using hm⟩
    · rename_i err s hl
      obtain ⟨more, hm⟩ := h3 err s hl
      have hs : s.calls = Call.initiateMultipart chunkSize :: more := by simpa using hm
      split
      · exact ⟨more, hs⟩
      · split
        · exact ⟨more, hs⟩
        · split
          · exact ⟨more, hs⟩
          · split
            · exact ⟨more ++ [Call.completeMultipart (getTreeHash file) s.at_], by
                show s.calls ++ _ = _
                rw [hs]
                rfl⟩
            · exact ⟨more ++ [Call.completeMultipart (getTreeHash file) s.at_], by
                show s.calls ++ _ = _
                rw [hs]
                rfl⟩

theorem multipartUpload_done {D : Type} (getTreeHash : List Byte → D) (file : List Byte)
    (env : UploadEnv) (s : UpState D) (h : multipartUpload getTreeHash file env = .done s) :
    Call.completeMultipart (getTreeHash file) s.at_ ∈ s.calls := by
  unfold multipartUpload at h
  dsimp only at h
  split at h
  · simp at h
  · split at h
    · simp at h
    · split at h
      · simp at h
      · simp at h
      · split at h
        · simp at h
        · split at h
          · simp at h
          · split at h
            · simp at h
            · split at h
              · simp at h
              · simp only [Outcome.done.injEq] at h
                subst h
                simp

/-- C9: for a source file shorter than `2 ^ 64` bytes, whatever `file.Read` and the
remote calls answer, every chunk `upload` sends with `UploadMultipart` is non-empty
and is sent at the offset that is the total length of the chunks sent before it, so
the offsets increase strictly from 0; and when `CompleteMultipart` is called, the
size it is given is the number of bytes sent, which is the size of the file. -/
theorem upload_offsets_and_size {D : Type} (getTreeHash : List Byte → D) (file : List Byte)
    (env : UploadEnv) (hsize : file.length < 2 ^ 64) :
    (∀ pre c post,
      transmitted (multipartUpload getTreeHash file env).state.calls = pre ++ c :: post →
      c.1 = (pre.map (fun x => x.2.length)).sum ∧ c.2 ≠ []) ∧
    (∀ pre c d post,
      transmitted (multipartUpload getTreeHash file env).state.calls = pre ++ c :: d :: post →
      c.1 < d.1) ∧
    (∀ h sz,
      Call.completeMultipart h sz ∈ (multipartUpload getTreeHash file env).state.calls →
      sz = ((transmitted (multipartUpload getTreeHash file env).state.calls).map
          (fun x => x.2.length)).sum ∧
        sz = file.length) := by
  obtain ⟨hc, hdone⟩ := multipartUpload_calls getTreeHash file env hsize
  refine ⟨hc, ?_, ?_⟩
  · intro pre c d post h
    obtain ⟨h1, h2⟩ := hc pre c (d :: post) h
    have h3 : transmitted (multipartUpload getTreeHash file env).state.calls =
        (pre ++ [c]) ++ d :: post := by
      rw [h]
      simp
    obtain ⟨h4, _⟩ := hc (pre ++ [c]) d post h3
    rw [h4, h1, List.map_append, List.sum_append]
    have hpos : 0 < c.2.length := List.length_pos.mpr h2
    simpa using hpos
  · intro h sz hmem
    obtain ⟨h1, h2⟩ := hdone h sz hmem
    refine ⟨?_, h1⟩
    rw [sum_lengths_eq, h2, h1]

/-- Witness for C9: a file of 3 bytes whose first read returns 2 bytes. -/
theorem upload_offsets_and_size_witness :
    ([1, 2, 3] : List Byte).length < 2 ^ 64 ∧
    ((0, [1, 2]) : Nat × List Byte).1 < ((2, [3]) : Nat × List Byte).1 ∧
    (3 = ((transmitted
        (multipartUpload (fun b => b) [1, 2, 3] shortReadUpload).state.calls).map
          (fun x => x.2.length)).sum ∧
      3 = ([1, 2, 3] : List Byte).length) :=
  ⟨by decide,
    (upload_offsets_and_size (fun b => b) [1, 2, 3] shortReadUpload (by decide)).2.1
      [] (0, [1, 2]) (2, [3]) [] (by decide),
    (upload_offsets_and_size (fun b => b) [1, 2, 3] shortReadUpload (by decide)).2.2
      [1, 2, 3] 3 (by decide)⟩

/-- C8, counterexample: on a disk whose session has one part, marked as uploaded,
`upload` sends the bytes of that part again, at offset 0, and completes. -/
theorem uploaded_part_sent_again :
    (uploadedDisk.session.map (fun d => d.Parts.map (fun p => p.Uploaded))) = some [true] ∧
    (uploadCommand (fun b => b) uploadedDisk quietUpload).1 =
      .done { at_ := 1, pos := 1,
              calls := [Call.initiateMultipart 1048576, Call.uploadMultipart 0 [5],
                        Call.completeMultipart [5] 1] } ∧
    transmitted (uploadCommand (fun b => b) uploadedDisk quietUpload).1.state.calls
      = [(0, [5])] := by
  decide

/-- C8, amended: `multipart upload` neither reads nor changes the session record.
Whatever parts the session marks as uploaded, the command makes the same calls: it
sends the source file from offset 0 on, when it ends without exit it has sent the
whole file, and its first call, once the file is open, is `InitiateMultipart`. -/
theorem upload_ignores_session {D : Type} (getTreeHash : List Byte → D) (disk : Disk D)
    (env : UploadEnv) (hsize : disk.file.length < 2 ^ 64) :
    (uploadCommand getTreeHash disk env).2 = disk ∧
    (∀ session, (uploadCommand getTreeHash { disk with session := session } env).1 =
      (uploadCommand getTreeHash disk env).1) ∧
    (∀ c post,
      transmitted (uploadCommand getTreeHash disk env).1.state.calls = c :: post → c.1 = 0) ∧
    (∀ s, (uploadCommand getTreeHash disk env).1 = .done s → sentBytes s.calls = disk.file) ∧
    (env.openErr = false →
      ∃ more, (uploadCommand getTreeHash disk env).1.state.calls =
        Call.initiateMultipart chunkSize :: more) := by
  obtain ⟨hc, hdone⟩ := multipartUpload_calls getTreeHash disk.file env hsize
  refine ⟨rfl, fun _ => rfl, ?_, ?_,
    fun ho => multipartUpload_initiates getTreeHash disk.file env ho⟩
  · intro c post h
    exact (hc [] c post h).1
  · intro s hs
    have hs2 : multipartUpload getTreeHash disk.file env = .done s := hs
    have hmem := multipartUpload_done getTreeHash disk.file env s hs2
    have := hdone (getTreeHash disk.file) s.at_ (by rw [hs2]; exact hmem)
    rw [hs2] at this
    exact this.2

/-- Witness for C8: the disk whose only part is marked as uploaded. -/
theorem upload_ignores_session_witness :
    uploadedDisk.file.length < 2 ^ 64 ∧
    (uploadCommand (fun b => b) uploadedDisk quietUpload).2 = uploadedDisk ∧
    ((0, [5]) : Nat × List Byte).1 = 0 ∧
    sentBytes ({ at_ := 1, pos := 1,
                 calls := [Call.initiateMultipart 1048576, Call.uploadMultipart 0 [5],
                           Call.completeMultipart [5] 1] } : UpState (List Byte)).calls
      = uploadedDisk.file :=
  ⟨by decide,
    (upload_ignores_session (fun b => b) uploadedDisk quietUpload (by decide)).1,
    (upload_ignores_session (fun b => b) uploadedDisk quietUpload (by decide)).2.2.1
      (0, [5]) [] (by decide),
    (upload_ignores_session (fun b => b) uploadedDisk quietUpload (by decide)).2.2.2.1
      _ (by decide)⟩

end Glacier
